import Mathlib

/-!
# Verification of the Q-CapsNets bit-width search (`src/q_capsnets.py`)

Shallow embedding of the `qcapsnets` function: the four-stage search for
per-layer quantization bit-widths.  Accuracies (Python floats compared with
`<`, `>=`, ...) are modelled as rationals; bit-widths are naturals; the
accuracy oracle `quantized_test(model, ..., act_bits, dr_bits)` — a
deterministic external collaborator per the spec — is a function from the
three bit-width vectors to an accuracy.  Python `while` loops are modelled
with an explicit fuel parameter; exhausting fuel yields a distinguished
crash outcome that never occurs on the runs the theorems speak about.
Python runtime exceptions (ZeroDivisionError, UnboundLocalError) are
modelled as explicit error outcomes.
-/

namespace QCaps

/-- The accuracy oracle: `evaluate(weight_bits, act_bits, dr_bits)` as an
accuracy percentage.  In the source this is `quantized_test` applied to a
freshly deep-copied model whose weights were re-quantized with the given
per-layer weight bits; determinism of the oracle (spec section 4.1) makes it a
function of the three vectors. -/
abbrev Oracle := List ℕ → List ℕ → List ℕ → ℚ

/-- Static per-model data extracted before the search, one entry per leaf
layer in traversal order: `wcounts` is `number_of_weights_inlayers`
(`p.numel()` summed over the layer's parameters), `isDR` is
`capsule_layer and dynamic_routing`, `wSqnr` the weight SQNR of the layer
(third component of the tuples in `..._w_info.pt`), `aSqnr` the activation
SQNR (from `..._a_info.pt`). -/
structure ModelInfo where
  wcounts : List ℕ
  isDR : List Bool
  wSqnr : List ℚ
  aSqnr : List ℚ
deriving Repr, DecidableEq

/-- Number of leaf layers (`len(leaf_children)`). -/
def ModelInfo.n (m : ModelInfo) : ℕ := m.wcounts.length

/-- Number of layers with `capsule_layer and dynamic_routing` (the length of
the dynamic-routing bit vectors built in steps 1-4). -/
def ModelInfo.drCount (m : ModelInfo) : ℕ := m.isDR.count true

/-- `minimum_accuracy = top_accuracy - accuracy_tolerance / 100 * top_accuracy`. -/
def minimum_accuracy (topAcc tol : ℚ) : ℚ := topAcc - tol / 100 * topAcc

/-- `step1_min_acc = top_accuracy - 5 / 100 * (top_accuracy - minimum_accuracy)`. -/
def step1_min_acc (topAcc tol : ℚ) : ℚ :=
  topAcc - 5 / 100 * (topAcc - minimum_accuracy topAcc tol)

/-! ## Sensitivity orderings

`sqnr_tuples` : pairs `(layer index, weight sqnr)` sorted by sqnr in
descending order with Python's stable `list.sort(key=..., reverse=True)`;
`act_sqnr` sorted ascending, then grouped into (at most) 4 groups.
Stable sorting is modelled by insertion sort: each element is inserted
after all already-placed elements whose key is at least (resp. at most)
its own. -/

/-- Stable insert for descending order: `x` goes after every element with a
key `≥` its own. -/
def insertByDesc (x : ℕ × ℚ) : List (ℕ × ℚ) → List (ℕ × ℚ)
  | [] => [x]
  | y :: ys => if x.2 ≤ y.2 then y :: insertByDesc x ys else x :: y :: ys

/-- Stable insert for ascending order: `x` goes after every element with a
key `≤` its own. -/
def insertByAsc (x : ℕ × ℚ) : List (ℕ × ℚ) → List (ℕ × ℚ)
  | [] => [x]
  | y :: ys => if y.2 ≤ x.2 then y :: insertByAsc x ys else x :: y :: ys

/-- `sqnr_tuples`: `(index, weight sqnr)` pairs sorted by sqnr descending
(stable). -/
def sqnr_tuples (sq : List ℚ) : List (ℕ × ℚ) :=
  (sq.enum).foldl (fun acc p => insertByDesc p acc) []

/-- Layer indices in descending weight-SQNR order (`l[2]` of each tuple, in
sorted order). -/
def sqnrOrder (sq : List ℚ) : List ℕ := (sqnr_tuples sq).map Prod.fst

/-- `act_sqnr` sorted by sqnr ascending (stable), as `(index, sqnr)` pairs. -/
def act_sqnr_sorted (sq : List ℚ) : List (ℕ × ℚ) :=
  (sq.enum).foldl (fun acc p => insertByAsc p acc) []

/-- `act_sqnr_grouped_index`: the sorted activation-layer indices split into
4 contiguous groups of `floor(len/4)` (last group takes the remainder) when
there are more than 4 layers, else one singleton group per layer. -/
def act_sqnr_grouped_index (sq : List ℚ) : List (List ℕ) :=
  let idxs := (act_sqnr_sorted sq).map Prod.fst
  if 4 < idxs.length then
    let g := idxs.length / 4
    [idxs.take g, (idxs.drop g).take g, (idxs.drop (2 * g)).take g, idxs.drop (3 * g)]
  else
    idxs.map (fun i => [i])

/-! ## Outcomes -/

/-- One delivered configuration: the three bit vectors, its measured
accuracy, and the weight-memory reduction factor
`tot_memory_b / final_weight_memory_b`. -/
structure Config where
  w : List ℕ
  a : List ℕ
  dr : List ℕ
  acc : ℚ
  memRed : ℚ
deriving Repr, DecidableEq

/-- Result of a `qcapsnets` run.  `errorString` is the early `return f"ERROR
..."` for an infeasible memory budget; `crash` models an uncaught Python
exception (or exhausted loop fuel, tagged `"fuel"`); `double` is the
10-tuple returned when both constraints cannot be met (model-memory followed
by model-accuracy); `single` is the final 5-tuple. -/
inductive QOutcome
  | errorString (msg : String)
  | crash (msg : String)
  | double (memCfg accCfg : Config)
  | single (cfg : Config)
deriving Repr, DecidableEq

/-! ## Stage 1 — uniform bit-width binary search -/

/-- `abs(a - b)` on Python ints, for naturals. -/
def bdist (a b : ℕ) : ℕ := max a b - min a b

/-- `next(k for k, val in enumerate(l) if p(val))`: index of the first
element satisfying `p`, `none` when there is none (where Python raises
StopIteration). -/
def firstIdx (p : α → Bool) : List α → Option ℕ
  | [] => none
  | x :: xs => if p x then some 0 else (firstIdx p xs).map (· + 1)

/-- The uniform query of `step1_quantization_test`: all weight, activation
and dynamic-routing bits set to the same value. -/
def step1Oracle (m : ModelInfo) (f : Oracle) (b : ℕ) : ℚ :=
  f (List.replicate m.n b) (List.replicate m.n b) (List.replicate m.drCount b)

/-- One round of the step-1 `while True` loop.  The trial lists are stored
most-recent-first (`rbits`, `raccs`, `rsats` are the reverses of
`step1_bit_search`, `step1_acc_list`, `step1_bit_search_sat`).  On the
convergence test `abs(bits[-1] - bits[-2]) == 1` the source selects
* the bit at the position of the *last* `True` of `step1_bit_search_sat`
  (it reverses the list and takes the first `True`), i.e. the head-most
  `true` of `rsats`;
* the accuracy at position `len - 1 - k` where `k` is the first `True` of
  the (un-reversed) `step1_bit_search_sat`, i.e. position `k` of `raccs`
  counting with `k` the first `true` of `rsats.reverse`.
Next candidates `int(cur ∓ abs(cur - prev)/2)` are `(2*cur ∓ d)/2` in
truncating natural division, which agrees with Python for the states the
search reaches (where `d` is even and `≤ cur`). -/
def step1Loop (g : ℕ → ℚ) (minA : ℚ) :
    ℕ → List ℕ → List ℚ → List Bool → Option (ℕ × ℚ)
  | 0, _, _, _ => none
  | fuel + 1, rbits, raccs, rsats =>
    match rbits with
    | cur :: prev :: rest =>
      let acc := g cur
      let s : Bool := decide (minA < acc)
      let raccs' := acc :: raccs
      let rsats' := s :: rsats
      if bdist cur prev = 1 then
        match firstIdx (fun x => x) rsats' with
        | none => none
        | some k =>
          match (cur :: prev :: rest).get? k,
                firstIdx (fun x => x) rsats'.reverse with
          | some b, some korig =>
            match raccs'.get? korig with
            | some a => some (b, a)
            | none => none
          | _, _ => none
      else
        let d := bdist cur prev
        let nxt := if s then (2 * cur - d) / 2 else (2 * cur + d) / 2
        step1Loop g minA fuel (nxt :: cur :: prev :: rest) raccs' rsats'
    | _ => none

/-- Step 1: evaluate 32 bits; if it beats `step1_min_acc` run the binary
search starting `[32, 16]`, else return 32 with its accuracy. -/
def step1Search (g : ℕ → ℚ) (minA : ℚ) (fuel : ℕ) : Option (ℕ × ℚ) :=
  let acc32 := g 32
  if minA < acc32 then
    step1Loop g minA fuel [16, 32] [acc32] [true]
  else
    some (32, acc32)

/-- Boolean mirror of `step1Loop` that only tracks pass/fail decisions and
returns the selected bit-width. -/
def step1LoopB (sat : ℕ → Bool) :
    ℕ → List ℕ → List Bool → Option ℕ
  | 0, _, _ => none
  | fuel + 1, rbits, rsats =>
    match rbits with
    | cur :: prev :: rest =>
      let s := sat cur
      let rsats' := s :: rsats
      if bdist cur prev = 1 then
        match firstIdx (fun x => x) rsats' with
        | none => none
        | some k => (cur :: prev :: rest).get? k
      else
        let d := bdist cur prev
        let nxt := if s then (2 * cur - d) / 2 else (2 * cur + d) / 2
        step1LoopB sat fuel (nxt :: cur :: prev :: rest) rsats'
    | _ => none

/-- Boolean mirror of `step1Search`. -/
def step1SearchB (sat : ℕ → Bool) (fuel : ℕ) : Option ℕ :=
  if sat 32 then step1LoopB sat fuel [16, 32] [true] else some 32

/-! ## Stage 2 — memory-constrained search -/

/-- `sum([bits[i] * counts[i] for i in range(len(bits))])` (the two lists
always have equal length in the source, asserted before the returns). -/
def weightMemoryBits (W wc : List ℕ) : ℕ := (List.zipWith (· * ·) W wc).sum

/-- The error string returned when the budget is below one bit per weight.
The source interpolates `minimum_mem_required / 8 / 2**20`. -/
def memErrText (minreq : ℕ) : String :=
  "ERROR The memory budget can not be satisfied, increase it to " ++
    toString ((minreq : ℚ) / 8 / 2 ^ 20) ++ " MB at least"

/-- The raise phase: `while step2_acc < minimum_accuracy:` increment every
layer's bits by one and re-evaluate (activation/dr bits stay at their
step-1 values). -/
def step2RaiseLoop (f : Oracle) (minAcc : ℚ) (A D : List ℕ) :
    ℕ → List ℕ → ℚ → Option (List ℕ × ℚ)
  | 0, W, acc => if acc < minAcc then none else some (W, acc)
  | fuel + 1, W, acc =>
    if acc < minAcc then
      let W' := W.map (· + 1)
      step2RaiseLoop f minAcc A D fuel W' (f W' A D)
    else
      some (W, acc)

/-- The inner `while step2_acc > minimum_accuracy and step2_weight_bits[l[2]] > 1:`
loop of the lower phase for the layer at index `idx`: decrement, remember the
previous accuracy in `prev` (`prev_step2_acc`), re-evaluate.  `prev` is
`none` while the Python local `prev_step2_acc` is still unassigned. -/
def step2LowerLoop (f : Oracle) (minAcc : ℚ) (A D : List ℕ) (idx : ℕ) :
    ℕ → List ℕ → ℚ → Option ℚ → List ℕ × ℚ × Option ℚ
  | 0, W, acc, prev => (W, acc, prev)
  | fuel + 1, W, acc, prev =>
    if minAcc < acc ∧ 1 < W.getD idx 0 then
      let W' := W.set idx (W.getD idx 0 - 1)
      let acc' := f W' A D
      step2LowerLoop f minAcc A D idx fuel W' acc' (some acc)
    else
      (W, acc, prev)

/-- After the inner loop the source always performs
`step2_weight_bits[l[2]] += 1` and `step2_acc = prev_step2_acc`; reading
`prev_step2_acc` before any inner-loop iteration ever ran raises
UnboundLocalError. -/
def step2LowerLayer (f : Oracle) (minAcc : ℚ) (A D : List ℕ) (idx : ℕ)
    (W : List ℕ) (acc : ℚ) (prev : Option ℚ) :
    Except String (List ℕ × ℚ × Option ℚ) :=
  match step2LowerLoop f minAcc A D idx (W.getD idx 0 + 1) W acc prev with
  | (W', _, prev') =>
    match prev' with
    | none => .error "UnboundLocalError prev_step2_acc"
    | some p => .ok (W'.set idx (W'.getD idx 0 + 1), p, some p)

/-- The lower phase: `for l in sqnr_tuples:` process each layer, then
recompute `curr_mem` and stop the whole phase (`branchB = False; break`)
as soon as it fits the budget.  Returns the final weight bits, accuracy and
whether the budget was met (`true` = fits, i.e. `branchB` was cleared). -/
def step2LowerPhase (f : Oracle) (minAcc : ℚ) (budgetBits : ℚ) (wc : List ℕ)
    (A D : List ℕ) :
    List ℕ → List ℕ → ℚ → Option ℚ → Except String (List ℕ × ℚ × Bool)
  | [], W, acc, _ => .ok (W, acc, false)
  | idx :: rest, W, acc, prev =>
    match step2LowerLayer f minAcc A D idx W acc prev with
    | .error e => .error e
    | .ok (W', acc', prev') =>
      if (weightMemoryBits W' wc : ℚ) ≤ budgetBits then
        .ok (W', acc', true)
      else
        step2LowerPhase f minAcc budgetBits wc A D rest W' acc' prev'

/-! ## Stage 3A — grouped activation refinement -/

/-- Body of `for i in range(len(group)): act[group[i]] -= 1;
curr_bits = act[group[i]]` — joint decrement of a group, tracking the last
member's new value in `curr`. -/
def dec3AGroup (g : List ℕ) (A : List ℕ) (curr : ℕ) : List ℕ × ℕ :=
  g.foldl (fun p i =>
    let A' := p.1.set i (p.1.getD i 0 - 1)
    (A', A'.getD i 0)) (A, curr)

/-- `for i in range(len(group)): act[group[i]] += 1` — joint rollback. -/
def inc3AGroup (g : List ℕ) (A : List ℕ) : List ℕ :=
  g.foldl (fun A' i => A'.set i (A'.getD i 0 + 1)) A

/-- The `while True` loop of step 3A for one group: if the accuracy is
still at or above the group's floor, stop (keeping the current bits) once
`curr_bits < 3`, else jointly decrement and re-evaluate; on an accuracy
violation roll the group back up by one and restore `step3a_acc_prev`
(UnboundLocalError if that local was never assigned). -/
def step3AInner (f : Oracle) (W D : List ℕ) (g : List ℕ) (floor : ℚ) :
    ℕ → List ℕ → ℕ → ℚ → Option ℚ → Except String (List ℕ × ℚ × Option ℚ)
  | 0, _, _, _, _ => .error "fuel"
  | fuel + 1, A, curr, acc, prev =>
    if floor ≤ acc then
      if curr < 3 then
        .ok (A, acc, prev)
      else
        let (A', curr') := dec3AGroup g A curr
        let acc' := f W A' D
        step3AInner f W D g floor fuel A' curr' acc' (some acc)
    else
      match prev with
      | none => .error "UnboundLocalError step3a_acc_prev"
      | some p => .ok (inc3AGroup g A, p, prev)

/-- `for l in range(0, len(act_sqnr_grouped_index)):` — lower the floor by
one share, reset `curr_bits` to `start_bits`, run the group loop. -/
def step3AGroups (f : Oracle) (W D : List ℕ) (share : ℚ) (start : ℕ)
    (fuel : ℕ) :
    List (List ℕ) → List ℕ → ℚ → Option ℚ → ℚ → Except String (List ℕ × ℚ)
  | [], A, acc, _, _ => .ok (A, acc)
  | g :: gs, A, acc, prev, floor =>
    let floor' := floor - share
    match step3AInner f W D g floor' fuel A start acc prev with
    | .error e => .error e
    | .ok (A', acc', prev') => step3AGroups f W D share start fuel gs A' acc' prev' floor'

/-- Step 3A: the accuracy budget is 55% of `step2_acc - minimum_accuracy`
divided by the number of groups (ZeroDivisionError when there are no
groups); the floor starts at `step2_acc`; `start_bits = step3a_act_bits[0]`. -/
def stage3A (f : Oracle) (groups : List (List ℕ)) (W D : List ℕ) (fuel : ℕ)
    (A : List ℕ) (acc minAcc : ℚ) : Except String (List ℕ × ℚ) :=
  if groups.length = 0 then
    .error "ZeroDivisionError step3a_accuracy_budget_per_step"
  else
    let share := (acc - minAcc) * 55 / 100 / (groups.length : ℚ)
    let start := A.getD 0 0
    step3AGroups f W D share start fuel groups A acc none acc

/-! ## Stage 4A — dynamic-routing refinement

`dynamic_routing_quantization` only ever has `True` appended, so
`dr_quantization_pos` is `[0, ..., len(dr_bits) - 1]` and
`dr_quantization_bits` stays identical to `step4a_dr_bits`; the embedding
keeps the single vector.  The `step4a_acc = step4a_acc_prev` assignment in
the rollback branch sits inside the copy loop in the source, which has the
same effect because that loop runs at least once there. -/

/-- The `while True` loop of step 4A for the routing layer at position `l`. -/
def step4AInner (f : Oracle) (W A : List ℕ) (l : ℕ) (floor : ℚ) :
    ℕ → List ℕ → ℚ → Option ℚ → Except String (List ℕ × ℚ × Option ℚ)
  | 0, _, _, _ => .error "fuel"
  | fuel + 1, D, acc, prev =>
    if floor ≤ acc then
      if D.getD l 0 < 3 then
        .ok (D, acc, prev)
      else
        let D' := D.set l (D.getD l 0 - 1)
        let acc' := f W A D'
        step4AInner f W A l floor fuel D' acc' (some acc)
    else
      match prev with
      | none => .error "UnboundLocalError step4a_acc_prev"
      | some p => .ok (D.set l (D.getD l 0 + 1), p, prev)

/-- `for l in range(0, len(dr_quantization_bits)):` with the floor lowered
by one share per layer. -/
def step4ALayers (f : Oracle) (W A : List ℕ) (share : ℚ) (fuel : ℕ) :
    List ℕ → List ℕ → ℚ → Option ℚ → ℚ → Except String (List ℕ × ℚ)
  | [], D, acc, _, _ => .ok (D, acc)
  | l :: ls, D, acc, prev, floor =>
    let floor' := floor - share
    match step4AInner f W A l floor' fuel D acc prev with
    | .error e => .error e
    | .ok (D', acc', prev') => step4ALayers f W A share fuel ls D' acc' prev' floor'

/-- Step 4A: budget `(step4a_acc - minimum_accuracy) / len(dr_quantization_bits)`
(ZeroDivisionError when no layer performs dynamic routing), floor starting
at the step-3A accuracy. -/
def stage4A (f : Oracle) (W A : List ℕ) (fuel : ℕ) (D : List ℕ)
    (acc minAcc : ℚ) : Except String (List ℕ × ℚ) :=
  if D.length = 0 then
    .error "ZeroDivisionError step4a_accuracy_budget_per_step"
  else
    let share := (acc - minAcc) / (D.length : ℚ)
    step4ALayers f W A share fuel (List.range D.length) D acc none acc

/-! ## The assembled pipeline -/

/-- Weight-memory reduction factor `tot_memory_b / final_weight_memory_b`
where `tot_memory_b = 32 * total number of weights` (the model's parameters
are exactly those of its leaf layers). -/
def memReduction (m : ModelInfo) (W : List ℕ) : ℚ :=
  (32 * m.wcounts.sum : ℚ) / (weightMemoryBits W m.wcounts : ℚ)

/-- Steps 3A and 4A and the final 5-tuple, entered with the step-2 weight
bits `W`, activation bits `A`, dynamic-routing bits `D` and accuracy `acc`. -/
def branchAContinue (m : ModelInfo) (f : Oracle) (minAcc : ℚ) (fuel : ℕ)
    (W A D : List ℕ) (acc : ℚ) : QOutcome :=
  match stage3A f (act_sqnr_grouped_index m.aSqnr) W D fuel A acc minAcc with
  | .error e => .crash e
  | .ok (A', acc3) =>
    match stage4A f W A' fuel D acc3 minAcc with
    | .error e => .crash e
    | .ok (D', acc4) => .single ⟨W, A', D', acc4, memReduction m W⟩

/-- Step 2 onward, given step 1's chosen uniform bit-width `b1`.
`memBudget` is in MB; `memory_budget_bits = memBudget * 8 * 2**20`.
When `minimum_mem_required` is zero the float division for
`step2_weight_bits` produces `inf`/`nan` and `math.floor` raises, modelled
as a crash. -/
def qcapsnetsFrom2 (m : ModelInfo) (f : Oracle) (topAcc tol memBudget : ℚ)
    (fuel : ℕ) (b1 : ℕ) : QOutcome :=
  let minAcc := minimum_accuracy topAcc tol
  let A1 := List.replicate m.n b1
  let D1 := List.replicate m.drCount b1
  let budgetBits : ℚ := memBudget * 8 * 2 ^ 20
  let minreq : ℕ := m.wcounts.sum
  if budgetBits < (minreq : ℚ) then
    .errorString (memErrText minreq)
  else if minreq = 0 then
    .crash "OverflowError math floor of float division by zero"
  else
    let b2 : ℕ := (⌊budgetBits / (minreq : ℚ)⌋).toNat
    let W2 := List.replicate m.n b2
    let acc2 := f W2 A1 D1
    if minAcc ≤ acc2 then
      branchAContinue m f minAcc fuel W2 A1 D1 acc2
    else
      match step2RaiseLoop f minAcc A1 D1 fuel W2 acc2 with
      | none => .crash "fuel"
      | some (Wr, accr) =>
        match step2LowerPhase f minAcc budgetBits m.wcounts A1 D1
            (sqnrOrder m.wSqnr) Wr accr none with
        | .error e => .crash e
        | .ok (Wl, accl, fits) =>
          if fits then
            branchAContinue m f minAcc fuel Wl A1 D1 accl
          else
            .double ⟨W2, A1, D1, acc2, memReduction m W2⟩
                    ⟨Wl, A1, D1, accl, memReduction m Wl⟩

/-- The whole `qcapsnets` search. -/
def qcapsnets (m : ModelInfo) (f : Oracle) (topAcc tol memBudget : ℚ)
    (fuel : ℕ) : QOutcome :=
  match step1Search (step1Oracle m f) (step1_min_acc topAcc tol) fuel with
  | none => .crash "fuel"
  | some (b1, _) => qcapsnetsFrom2 m f topAcc tol memBudget fuel b1

/-! ## Concrete instances used as witnesses and counterexamples -/

/-- A one-layer model used by witnesses. -/
def c1wModel : ModelInfo := ⟨[1], [false], [0], [0]⟩

/-- An oracle whose uniform response grows linearly in the bit-width. -/
def c1wOracle : Oracle := fun W _ _ => ((W.sum : ℕ) : ℚ)

/-- A constant accuracy oracle. -/
def constOracle : Oracle := fun _ _ _ => 100

/-- One-layer model for the C10 scenario (one weight, no dynamic routing). -/
def md10 : ModelInfo := ⟨[1], [false], [0], [0]⟩

/-- Oracle for the C10 scenario: the uniform-`b2` candidate (2 bits) scores
80, the raise phase reaches exactly the accuracy floor 90 at 3 bits. -/
def f10 : Oracle := fun W _ _ =>
  match W with
  | [w] => if w = 2 then 80 else if w = 3 then 90 else 95
  | _ => 0

/-- One-layer model with dynamic routing and 10 weights, for the C2
counterexample run. -/
def md2 : ModelInfo := ⟨[10], [true], [0], [0]⟩

/-- Oracle for the C2 counterexample: uniform queries pass the Stage 1 floor
from 4 bits up; the Stage 2 uniform candidate at 40 bits passes the
accuracy floor, and Stage 3A/4A decrements keep passing until the bit
guards stop them at 2 bits. -/
def f2 : Oracle := fun W A D =>
  match W, A, D with
  | [w], [a], [d] =>
    if w = a ∧ a = d then (if 4 ≤ w then 199 / 2 else 50)
    else if a = 4 then 95
    else if a = 3 then 94
    else if d = 4 then 93
    else if d = 3 then 92
    else 91
  | _, _, _ => 0

/-- The element-wise bounds asserted by claim C2 for the final
configuration: weight bits in `[1, 32]`, activation and dynamic-routing
bits in `[3, 32]`. -/
def c2ClaimedBounds (o : QOutcome) : Prop :=
  ∀ cfg, o = QOutcome.single cfg →
    (∀ b ∈ cfg.w, 1 ≤ b ∧ b ≤ 32) ∧
    (∀ b ∈ cfg.a, 3 ≤ b ∧ b ≤ 32) ∧
    (∀ b ∈ cfg.dr, 3 ≤ b ∧ b ≤ 32)

/-- Oracle for the C3 counterexample: on a single weight layer, 3 bits
score 95 and every other bit-width scores exactly the accuracy floor 90. -/
def f3 : Oracle := fun W _ _ =>
  match W with
  | [w] => if w = 3 then 95 else 90
  | _ => 0

/-- The Stage 2 lower-phase inner loop as claim C3 states it: keep
decrementing the layer's bit-width while the accuracy stays at or above the
floor and the bit-width exceeds 1, and on the first accuracy violation
restore the layer's last passing bit-width and accuracy (no restore when
the loop stops at bit-width 1 or at an accuracy exactly on the floor). -/
def step2LowerLoopClaim (f : Oracle) (minAcc : ℚ) (A D : List ℕ) (idx : ℕ) :
    ℕ → List ℕ → ℚ → List ℕ × ℚ
  | 0, W, acc => (W, acc)
  | fuel + 1, W, acc =>
    if minAcc ≤ acc ∧ 1 < W.getD idx 0 then
      let W' := W.set idx (W.getD idx 0 - 1)
      let acc' := f W' A D
      if acc' < minAcc then (W, acc)
      else step2LowerLoopClaim f minAcc A D idx fuel W' acc'
    else
      (W, acc)

/-- The Stage 2 lower phase as claim C3 states it: visit the layers in the
given order, run the claimed inner loop on each, then recompute the total
weight memory and stop the whole phase as soon as it fits the budget. -/
def step2LowerPhaseClaim (f : Oracle) (minAcc : ℚ) (budgetBits : ℚ)
    (wc A D : List ℕ) : List ℕ → List ℕ → ℚ → List ℕ × ℚ × Bool
  | [], W, acc => (W, acc, false)
  | idx :: rest, W, acc =>
    let r := step2LowerLoopClaim f minAcc A D idx (W.getD idx 0 + 1) W acc
    if (weightMemoryBits r.1 wc : ℚ) ≤ budgetBits then (r.1, r.2, true)
    else step2LowerPhaseClaim f minAcc budgetBits wc A D rest r.1 r.2

/-- One-layer model with four weights and no dynamic routing, for the C4
counterexample run. -/
def md4 : ModelInfo := ⟨[4], [false], [0], [0]⟩

/-- Oracle for the C4 counterexample: 2 weight bits score 70, 3 weight bits
score 95, and every other width (including all uniform Stage 1 probes)
scores 50, so the raise phase climbs from the 1-bit uniform candidate to 3
bits. -/
def f4 : Oracle := fun W _ _ =>
  match W with
  | [w] => if w = 2 then 70 else if w = 3 then 95 else 50
  | _ => 0

/-- The Stage 3A group loop as claim C7 states it: jointly decrement the
whole group while the resulting accuracy stays at or above the per-group
floor and no layer of the group would drop below 3 bits; on the first
accuracy violation keep the last passing bits and accuracy. -/
def step3AInnerClaim (f : Oracle) (W D : List ℕ) (g : List ℕ) (floor : ℚ) :
    ℕ → List ℕ → ℚ → Except String (List ℕ × ℚ)
  | 0, _, _ => .error "fuel"
  | fuel + 1, A, acc =>
    if g.any (fun i => decide (A.getD i 0 < 4)) then
      .ok (A, acc)
    else
      let A' := (dec3AGroup g A 0).1
      let acc' := f W A' D
      if acc' < floor then .ok (A, acc)
      else step3AInnerClaim f W D g floor fuel A' acc'

/-- The Stage 3A group iteration as claim C7 states it: lower the floor by
one equal share per group, then run the claimed group loop. -/
def step3AGroupsClaim (f : Oracle) (W D : List ℕ) (share : ℚ) (fuel : ℕ) :
    List (List ℕ) → List ℕ → ℚ → ℚ → Except String (List ℕ × ℚ)
  | [], A, acc, _ => .ok (A, acc)
  | g :: gs, A, acc, floor =>
    let floor' := floor - share
    match step3AInnerClaim f W D g floor' fuel A acc with
    | .error e => .error e
    | .ok (A', acc') => step3AGroupsClaim f W D share fuel gs A' acc' floor'

/-- Stage 3A as claim C7 states it: the accuracy budget is 55% of the
slack above the floor, divided evenly across the groups. -/
def stage3AClaim (f : Oracle) (groups : List (List ℕ)) (W D : List ℕ)
    (fuel : ℕ) (A : List ℕ) (acc minAcc : ℚ) : Except String (List ℕ × ℚ) :=
  if groups.length = 0 then
    .error "ZeroDivisionError step3a_accuracy_budget_per_step"
  else
    step3AGroupsClaim f W D ((acc - minAcc) * 55 / 100 / (groups.length : ℚ))
      fuel groups A acc acc

/-- State invariant of the stage-1 binary search: the gap between the two
most recent candidates is a power of two `2^e` (`e ≤ 4`), the current
candidate is an odd multiple of that power, and it leaves room for one more
gap below 32. -/
def s1Inv (cur prev : ℕ) : Prop :=
  ∃ e k, e ≤ 4 ∧ bdist cur prev = 2 ^ e ∧ cur = (2 * k + 1) * 2 ^ e ∧
    cur + 2 ^ e ≤ 32

/-! ## Theorems -/

/-! ### Helper lemmas about `firstIdx` -/

lemma firstIdx_lt_length (p : α → Bool) :
    ∀ {l : List α} {k : ℕ}, firstIdx p l = some k → k < l.length := by
  intro l
  induction l with
  | nil => intro k h; simp [firstIdx] at h
  | cons x xs ih =>
    intro k h
    rw [firstIdx] at h
    cases hpx : p x with
    | true =>
      rw [hpx] at h
      simp at h
      subst h
      simp
    | false =>
      rw [hpx] at h
      simp at h
      obtain ⟨j, hj, hjk⟩ := h
      have := ih hj
      simp
      omega

lemma firstIdx_exists_true (p : α → Bool) :
    ∀ {l : List α} {k : ℕ}, firstIdx p l = some k → ∃ x ∈ l, p x = true := by
  intro l
  induction l with
  | nil => intro k h; simp [firstIdx] at h
  | cons x xs ih =>
    intro k h
    rw [firstIdx] at h
    cases hpx : p x with
    | true => exact ⟨x, by simp, hpx⟩
    | false =>
      rw [hpx] at h
      simp at h
      obtain ⟨j, hj, _⟩ := h
      obtain ⟨y, hy, hpy⟩ := ih hj
      exact ⟨y, by simp [hy], hpy⟩

lemma firstIdx_isSome (p : α → Bool) :
    ∀ {l : List α}, (∃ x ∈ l, p x = true) → ∃ k, firstIdx p l = some k := by
  intro l
  induction l with
  | nil => intro h; simp at h
  | cons x xs ih =>
    intro h
    by_cases hx : p x = true
    · exact ⟨0, by simp [firstIdx, hx]⟩
    · obtain ⟨y, hy, hpy⟩ := h
      rcases List.mem_cons.mp hy with rfl | hmem
      · exact absurd hpy hx
      · obtain ⟨k, hk⟩ := ih ⟨y, hmem, hpy⟩
        exact ⟨k + 1, by simp [firstIdx, hx, hk]⟩

/-! ### Stage 1: the bit choice only depends on the pass/fail history -/

lemma step1Loop_fst (g : ℕ → ℚ) (minA : ℚ) :
    ∀ (fuel : ℕ) (rbits : List ℕ) (raccs : List ℚ) (rsats : List Bool),
      raccs.length = rsats.length → rbits.length = rsats.length + 1 →
      (step1Loop g minA fuel rbits raccs rsats).map Prod.fst
        = step1LoopB (fun b => decide (minA < g b)) fuel rbits rsats := by
  intro fuel
  induction fuel with
  | zero => intro rbits raccs rsats _ _; simp [step1Loop, step1LoopB]
  | succ n ih =>
    intro rbits raccs rsats hlen hlen2
    match rbits with
    | [] => simp [step1Loop, step1LoopB]
    | [cur] => simp [step1Loop, step1LoopB]
    | cur :: prev :: rest =>
      simp only [step1Loop, step1LoopB]
      by_cases hd : bdist cur prev = 1
      · simp only [hd, if_true]
        cases hfind : firstIdx (fun x => x) (decide (minA < g cur) :: rsats) with
        | none => simp [hfind]
        | some k =>
          have hk : k < (decide (minA < g cur) :: rsats).length :=
            firstIdx_lt_length _ hfind
          have hkb : k < (cur :: prev :: rest).length := by
            simp only [List.length_cons] at hk hlen2 ⊢
            omega
          obtain ⟨b, hb⟩ : ∃ b, (cur :: prev :: rest).get? k = some b :=
            ⟨_, List.get?_eq_get hkb⟩
          obtain ⟨x, hxmem, hpx⟩ := firstIdx_exists_true _ hfind
          obtain ⟨korig, hkorig⟩ : ∃ j,
              firstIdx (fun x => x) ((decide (minA < g cur) :: rsats).reverse) = some j :=
            firstIdx_isSome _ ⟨x, List.mem_reverse.mpr hxmem, hpx⟩
          have hko : korig < ((decide (minA < g cur) :: rsats).reverse).length :=
            firstIdx_lt_length _ hkorig
          have hkoa : korig < (g cur :: raccs).length := by
            simp only [List.length_reverse, List.length_cons] at hko
            simp only [List.length_cons]
            omega
          obtain ⟨a, ha⟩ : ∃ a, (g cur :: raccs).get? korig = some a :=
            ⟨_, List.get?_eq_get hkoa⟩
          rw [List.get?_eq_getElem?] at hb ha
          simp [hfind, hb, hkorig, ha, -List.reverse_cons]
      · simp only [hd, if_false]
        exact ih (((if decide (minA < g cur) then (2 * cur - bdist cur prev) / 2
              else (2 * cur + bdist cur prev) / 2)) :: cur :: prev :: rest)
          (g cur :: raccs) (decide (minA < g cur) :: rsats)
          (by simp only [List.length_cons]; omega)
          (by simp only [List.length_cons] at hlen2 ⊢; omega)

lemma step1Search_fst (g : ℕ → ℚ) (minA : ℚ) (fuel : ℕ) :
    (step1Search g minA fuel).map Prod.fst
      = step1SearchB (fun b => decide (minA < g b)) fuel := by
  unfold step1Search step1SearchB
  by_cases h : minA < g 32
  · simp only [h, if_true, decide_True, if_pos]
    exact step1Loop_fst g minA fuel [16, 32] [g 32] [true] (by simp) (by simp)
  · simp [h]

/-- For every pass threshold `t ≤ 32`, the boolean stage-1 search run on the
predicate `t ≤ b` converges to `max 1 t` within the 5 loop rounds it always
takes. -/
lemma step1SearchB_threshold :
    ∀ t : Fin 33, step1SearchB (fun b => decide (t.val ≤ b)) 6 = some (max 1 t.val) := by
  decide

/-- The brute-force linear scan over `{1..32}` for the same threshold
predicate also yields `max 1 t`. -/
lemma range_find_threshold :
    ∀ t : Fin 33,
      (List.range' 1 32).find? (fun b => decide (t.val ≤ b)) = some (max 1 t.val) := by
  decide

/-- Core stage-1 statement, for any floor and monotone uniform response. -/
theorem step1_minimal (g : ℕ → ℚ) (minA : ℚ)
    (hmono : ∀ a b : ℕ, a ≤ b → g a ≤ g b) (h32 : minA < g 32) :
    (step1Search g minA 6).map Prod.fst
      = (List.range' 1 32).find? (fun b => decide (minA < g b)) := by
  have hex : ∃ n, minA < g n := ⟨32, h32⟩
  have ht : minA < g (Nat.find hex) := Nat.find_spec hex
  have ht32 : Nat.find hex ≤ 32 := Nat.find_min' hex h32
  have hkey : (fun b => decide (minA < g b)) = (fun b => decide (Nat.find hex ≤ b)) := by
    funext b
    simp only [decide_eq_decide]
    constructor
    · intro hc
      by_contra hnb
      exact Nat.find_min hex (by omega) hc
    · intro hc
      exact lt_of_lt_of_le ht (hmono _ b hc)
  rw [step1Search_fst, hkey]
  have h1 := step1SearchB_threshold ⟨Nat.find hex, by omega⟩
  have h2 := range_find_threshold ⟨Nat.find hex, by omega⟩
  exact h1.trans h2.symm

/-- C1: for a deterministic accuracy oracle whose uniform response is a
non-decreasing function of the bit-width, if the accuracy at 32 bits passes
the Stage 1 floor `step1_min_acc = A0 - 0.05 * (A0 - minAcc)` then the
Stage 1 binary search terminates (returns a value within its 6 rounds of
fuel) and its chosen bit-width equals the result of a brute-force linear
scan over `{1..32}` for the lowest bit-width passing the floor; in
particular the candidate selected from the recorded pass/fail history is
that minimal passing bit-width. -/
theorem c1_stage1_binary_search (m : ModelInfo) (f : Oracle) (topAcc tol : ℚ)
    (hmono : ∀ a b : ℕ, a ≤ b → step1Oracle m f a ≤ step1Oracle m f b)
    (h32 : step1_min_acc topAcc tol < step1Oracle m f 32) :
    (step1Search (step1Oracle m f) (step1_min_acc topAcc tol) 6).map Prod.fst
      = (List.range' 1 32).find?
          (fun b => decide (step1_min_acc topAcc tol < step1Oracle m f b)) :=
  step1_minimal _ _ hmono h32

lemma c1w_uniform (x : ℕ) : step1Oracle c1wModel c1wOracle x = (x : ℚ) := by
  simp [step1Oracle, c1wModel, c1wOracle, ModelInfo.n, ModelInfo.drCount]

lemma c1w_mono : ∀ a b : ℕ, a ≤ b → step1Oracle c1wModel c1wOracle a ≤ step1Oracle c1wModel c1wOracle b := by
  intro a b h
  rw [c1w_uniform, c1w_uniform]
  exact_mod_cast h

/-- Witness for C1 at a concrete monotone oracle (uniform response `b ↦ b`,
floor `19.5`): the hypotheses hold and the search result equals the linear
scan. -/
theorem c1_stage1_binary_search_witness :
    step1_min_acc 20 50 < step1Oracle c1wModel c1wOracle 32 ∧
    (step1Search (step1Oracle c1wModel c1wOracle) (step1_min_acc 20 50) 6).map Prod.fst
      = (List.range' 1 32).find?
          (fun b => decide (step1_min_acc 20 50 < step1Oracle c1wModel c1wOracle b)) :=
  ⟨by rw [c1w_uniform]; norm_num [step1_min_acc, minimum_accuracy],
   c1_stage1_binary_search c1wModel c1wOracle 20 50 c1w_mono
     (by rw [c1w_uniform]; norm_num [step1_min_acc, minimum_accuracy])⟩

/-! ### C8 — determinism of the search -/

/-- C8: two runs of `qcapsnets` on identical inputs and a deterministic
oracle (two oracles answering every query identically) return identical
results — bit vectors, accuracy and memory-reduction factor included; the
search introduces no randomness of its own. -/
theorem c8_deterministic (m : ModelInfo) (f g : Oracle)
    (topAcc tol memBudget : ℚ) (fuel : ℕ)
    (hfg : ∀ W A D, f W A D = g W A D) :
    qcapsnets m f topAcc tol memBudget fuel
      = qcapsnets m g topAcc tol memBudget fuel := by
  have h : f = g := funext fun W => funext fun A => funext fun D => hfg W A D
  rw [h]

/-- Witness for C8 at a concrete model and oracle. -/
theorem c8_deterministic_witness :
    qcapsnets c1wModel constOracle 100 10 1 50
      = qcapsnets c1wModel constOracle 100 10 1 50 :=
  c8_deterministic c1wModel constOracle constOracle 100 10 1 50
    (fun _ _ _ => rfl)

/-! ### C5 — fail-fast on an infeasible memory budget -/

lemma branchAContinue_ne_errorString (m : ModelInfo) (f : Oracle)
    (minAcc : ℚ) (fuel : ℕ) (W A D : List ℕ) (acc : ℚ) (msg : String) :
    branchAContinue m f minAcc fuel W A D acc ≠ .errorString msg := by
  unfold branchAContinue
  rcases h3 : stage3A f (act_sqnr_grouped_index m.aSqnr) W D fuel A acc minAcc with e | ⟨A', acc3⟩
  · simp
  · rcases h4 : stage4A f W A' fuel D acc3 minAcc with e | ⟨D', acc4⟩ <;> simp [h4]

lemma qcapsnetsFrom2_ne_errorString (m : ModelInfo) (f : Oracle)
    (topAcc tol memBudget : ℚ) (fuel : ℕ) (b1 : ℕ)
    (hb : ¬ memBudget * 8 * 2 ^ 20 < (m.wcounts.sum : ℚ)) (msg : String) :
    qcapsnetsFrom2 m f topAcc tol memBudget fuel b1 ≠ .errorString msg := by
  intro h
  simp only [qcapsnetsFrom2] at h
  rw [if_neg hb] at h
  by_cases hz : m.wcounts.sum = 0
  · rw [if_pos hz] at h
    exact QOutcome.noConfusion h
  · rw [if_neg hz] at h
    split at h
    · exact branchAContinue_ne_errorString _ _ _ _ _ _ _ _ _ h
    · split at h
      · exact QOutcome.noConfusion h
      · split at h
        · exact QOutcome.noConfusion h
        · split at h
          · exact branchAContinue_ne_errorString _ _ _ _ _ _ _ _ _ h
          · exact QOutcome.noConfusion h

/-- C5: at Stage 2 entry the search returns the fatal budget error string —
independently of anything the oracle would answer from here on — exactly
when the budget in bits `memory_budget * 8 * 2^20` is strictly below the
total number of weights (1 bit per weight); otherwise the run never
produces that error and continues past Stage 2 entry. -/
theorem c5_budget_fail_fast (m : ModelInfo) (f : Oracle)
    (topAcc tol memBudget : ℚ) (fuel : ℕ) (b1 : ℕ) :
    (qcapsnetsFrom2 m f topAcc tol memBudget fuel b1
        = .errorString (memErrText m.wcounts.sum)
      ↔ memBudget * 8 * 2 ^ 20 < (m.wcounts.sum : ℚ)) ∧
    (∀ g : Oracle, memBudget * 8 * 2 ^ 20 < (m.wcounts.sum : ℚ) →
      qcapsnetsFrom2 m f topAcc tol memBudget fuel b1
        = qcapsnetsFrom2 m g topAcc tol memBudget fuel b1) := by
  constructor
  · constructor
    · intro h
      by_contra hb
      exact qcapsnetsFrom2_ne_errorString m f topAcc tol memBudget fuel b1 hb _ h
    · intro hb
      simp only [qcapsnetsFrom2]
      rw [if_pos hb]
  · intro g hb
    simp only [qcapsnetsFrom2]
    rw [if_pos hb, if_pos hb]

/-- Witness for C5: a budget of zero MB against one weight triggers the
error string, and it is oracle-independent (same outcome under `f10`). -/
theorem c5_budget_fail_fast_witness :
    qcapsnetsFrom2 c1wModel constOracle 100 10 0 50 6
        = .errorString (memErrText c1wModel.wcounts.sum) ∧
    qcapsnetsFrom2 c1wModel constOracle 100 10 0 50 6
        = qcapsnetsFrom2 c1wModel f10 100 10 0 50 6 := by
  have hlt : (0 : ℚ) * 8 * 2 ^ 20 < (c1wModel.wcounts.sum : ℚ) := by
    norm_num [c1wModel]
  exact ⟨(c5_budget_fail_fast c1wModel constOracle 100 10 0 50 6).1.mpr hlt,
    (c5_budget_fail_fast c1wModel constOracle 100 10 0 50 6).2 f10 hlt⟩

/-! ### C6 — the uniform Model-Memory candidate -/

/-- C6: when the budget is feasible, Stage 2's uniform candidate is
`b2 = floor(budgetBits / Σ weight_count)` on every layer; if its measured
accuracy meets `minimum_accuracy`, the raise and lower phases are skipped
and the pipeline proceeds to Stage 3A with exactly this uniform weight
vector together with Stage 1's activation and dynamic-routing bits; and a
budget exactly equal to `Σ weight_count` gives `b2 = 1`. -/
theorem c6_uniform_memory_candidate (m : ModelInfo) (f : Oracle)
    (topAcc tol memBudget : ℚ) (fuel : ℕ) (b1 : ℕ)
    (hfeas : ¬ memBudget * 8 * 2 ^ 20 < (m.wcounts.sum : ℚ))
    (hpos : m.wcounts.sum ≠ 0)
    (hacc : minimum_accuracy topAcc tol ≤
      f (List.replicate m.n (⌊memBudget * 8 * 2 ^ 20 / (m.wcounts.sum : ℚ)⌋.toNat))
        (List.replicate m.n b1) (List.replicate m.drCount b1)) :
    qcapsnetsFrom2 m f topAcc tol memBudget fuel b1
      = branchAContinue m f (minimum_accuracy topAcc tol) fuel
          (List.replicate m.n (⌊memBudget * 8 * 2 ^ 20 / (m.wcounts.sum : ℚ)⌋.toNat))
          (List.replicate m.n b1) (List.replicate m.drCount b1)
          (f (List.replicate m.n (⌊memBudget * 8 * 2 ^ 20 / (m.wcounts.sum : ℚ)⌋.toNat))
            (List.replicate m.n b1) (List.replicate m.drCount b1)) ∧
    (memBudget * 8 * 2 ^ 20 = (m.wcounts.sum : ℚ) →
      ⌊memBudget * 8 * 2 ^ 20 / (m.wcounts.sum : ℚ)⌋.toNat = 1) := by
  constructor
  · simp only [qcapsnetsFrom2]
    rw [if_neg hfeas, if_neg hpos, if_pos hacc]
  · intro heq
    rw [heq, div_self (by exact_mod_cast hpos)]
    norm_num

/-- Witness for C6: one weight, budget exactly one bit, constant oracle —
the uniform candidate is 1 bit everywhere and Stage 3A is entered directly. -/
theorem c6_uniform_memory_candidate_witness :
    (¬ (1 / 2 ^ 23 : ℚ) * 8 * 2 ^ 20 < (c1wModel.wcounts.sum : ℚ)) ∧
    c1wModel.wcounts.sum ≠ 0 ∧
    (minimum_accuracy 100 10 ≤
      constOracle
        (List.replicate c1wModel.n
          (⌊(1 / 2 ^ 23 : ℚ) * 8 * 2 ^ 20 / (c1wModel.wcounts.sum : ℚ)⌋.toNat))
        (List.replicate c1wModel.n 5) (List.replicate c1wModel.drCount 5)) ∧
    (qcapsnetsFrom2 c1wModel constOracle 100 10 (1 / 2 ^ 23) 50 5
      = branchAContinue c1wModel constOracle (minimum_accuracy 100 10) 50
          (List.replicate c1wModel.n
            (⌊(1 / 2 ^ 23 : ℚ) * 8 * 2 ^ 20 / (c1wModel.wcounts.sum : ℚ)⌋.toNat))
          (List.replicate c1wModel.n 5) (List.replicate c1wModel.drCount 5)
          (constOracle
            (List.replicate c1wModel.n
              (⌊(1 / 2 ^ 23 : ℚ) * 8 * 2 ^ 20 / (c1wModel.wcounts.sum : ℚ)⌋.toNat))
            (List.replicate c1wModel.n 5) (List.replicate c1wModel.drCount 5))) ∧
    ⌊(1 / 2 ^ 23 : ℚ) * 8 * 2 ^ 20 / (c1wModel.wcounts.sum : ℚ)⌋.toNat = 1 := by
  have hfeas : ¬ (1 / 2 ^ 23 : ℚ) * 8 * 2 ^ 20 < (c1wModel.wcounts.sum : ℚ) := by
    norm_num [c1wModel]
  have hpos : c1wModel.wcounts.sum ≠ 0 := by norm_num [c1wModel]
  have hacc : minimum_accuracy 100 10 ≤
      constOracle
        (List.replicate c1wModel.n
          (⌊(1 / 2 ^ 23 : ℚ) * 8 * 2 ^ 20 / (c1wModel.wcounts.sum : ℚ)⌋.toNat))
        (List.replicate c1wModel.n 5) (List.replicate c1wModel.drCount 5) := by
    norm_num [minimum_accuracy, constOracle]
  obtain ⟨h1, h2⟩ :=
    c6_uniform_memory_candidate c1wModel constOracle 100 10 (1 / 2 ^ 23) 50 5
      hfeas hpos hacc
  refine ⟨hfeas, hpos, hacc, h1, h2 ?_⟩
  norm_num [c1wModel]

/-! ### Bit-floor preservation through Stage 2 -/

lemma step2RaiseLoop_ge_one (f : Oracle) (minAcc : ℚ) (A D : List ℕ) :
    ∀ (fuel : ℕ) (W : List ℕ) (acc : ℚ) (W' : List ℕ) (acc' : ℚ),
      step2RaiseLoop f minAcc A D fuel W acc = some (W', acc') →
      (∀ b ∈ W, 1 ≤ b) → ∀ b ∈ W', 1 ≤ b := by
  intro fuel
  induction fuel with
  | zero =>
    intro W acc W' acc' h hW
    rw [step2RaiseLoop] at h
    by_cases hc : acc < minAcc
    · rw [if_pos hc] at h; exact Option.noConfusion h
    · rw [if_neg hc] at h
      simp at h
      obtain ⟨rfl, rfl⟩ := h
      exact hW
  | succ n ih =>
    intro W acc W' acc' h hW
    rw [step2RaiseLoop] at h
    by_cases hc : acc < minAcc
    · rw [if_pos hc] at h
      refine ih _ _ _ _ h ?_
      intro b hb
      obtain ⟨x, _, rfl⟩ := List.mem_map.mp hb
      omega
    · rw [if_neg hc] at h
      simp at h
      obtain ⟨rfl, rfl⟩ := h
      exact hW

lemma step2LowerLoop_ge_one (f : Oracle) (minAcc : ℚ) (A D : List ℕ) (idx : ℕ) :
    ∀ (fuel : ℕ) (W : List ℕ) (acc : ℚ) (prev : Option ℚ),
      (∀ b ∈ W, 1 ≤ b) →
      ∀ b ∈ (step2LowerLoop f minAcc A D idx fuel W acc prev).1, 1 ≤ b := by
  intro fuel
  induction fuel with
  | zero => intro W acc prev hW; exact hW
  | succ n ih =>
    intro W acc prev hW
    rw [step2LowerLoop]
    by_cases hc : minAcc < acc ∧ 1 < W.getD idx 0
    · rw [if_pos hc]
      refine ih _ _ _ ?_
      intro b hb
      rcases List.mem_or_eq_of_mem_set hb with hmem | rfl
      · exact hW b hmem
      · omega
    · rw [if_neg hc]
      exact hW

lemma step2LowerLayer_ge_one (f : Oracle) (minAcc : ℚ) (A D : List ℕ) (idx : ℕ)
    (W : List ℕ) (acc : ℚ) (prev : Option ℚ) (W' : List ℕ) (p : ℚ) (prev' : Option ℚ)
    (h : step2LowerLayer f minAcc A D idx W acc prev = .ok (W', p, prev'))
    (hW : ∀ b ∈ W, 1 ≤ b) : ∀ b ∈ W', 1 ≤ b := by
  unfold step2LowerLayer at h
  rcases hloop : step2LowerLoop f minAcc A D idx (W.getD idx 0 + 1) W acc prev
    with ⟨W2, q, prev2⟩
  rw [hloop] at h
  dsimp only at h
  cases prev2 with
  | none => exact Except.noConfusion h
  | some q2 =>
    simp at h
    obtain ⟨hW', _, _⟩ := h
    intro b hb
    rw [← hW'] at hb
    rcases List.mem_or_eq_of_mem_set hb with hmem | rfl
    · have := step2LowerLoop_ge_one f minAcc A D idx (W.getD idx 0 + 1) W acc prev hW
      rw [hloop] at this
      exact this b hmem
    · omega

lemma step2LowerPhase_ge_one (f : Oracle) (minAcc budgetBits : ℚ) (wc A D : List ℕ) :
    ∀ (order W : List ℕ) (acc : ℚ) (prev : Option ℚ) (W' : List ℕ) (acc' : ℚ) (fits : Bool),
      step2LowerPhase f minAcc budgetBits wc A D order W acc prev = .ok (W', acc', fits) →
      (∀ b ∈ W, 1 ≤ b) → ∀ b ∈ W', 1 ≤ b := by
  intro order
  induction order with
  | nil =>
    intro W acc prev W' acc' fits h hW
    simp [step2LowerPhase] at h
    obtain ⟨rfl, _, _⟩ := h
    exact hW
  | cons idx rest ih =>
    intro W acc prev W' acc' fits h hW
    rw [step2LowerPhase] at h
    cases hl : step2LowerLayer f minAcc A D idx W acc prev with
    | error e => rw [hl] at h; exact Except.noConfusion h
    | ok t =>
      obtain ⟨W'', p, prev''⟩ := t
      rw [hl] at h
      dsimp only at h
      have hW'' : ∀ b ∈ W'', 1 ≤ b :=
        step2LowerLayer_ge_one f minAcc A D idx W acc prev W'' p prev'' hl hW
      by_cases hm : (weightMemoryBits W'' wc : ℚ) ≤ budgetBits
      · rw [if_pos hm] at h
        simp at h
        obtain ⟨rfl, _, _⟩ := h
        exact hW''
      · rw [if_neg hm] at h
        exact ih _ _ _ _ _ _ h hW''

/-! ### Inversion of the pipeline on `single` outcomes -/

lemma branchAContinue_single (m : ModelInfo) (f : Oracle) (minAcc : ℚ)
    (fuel : ℕ) (W A D : List ℕ) (acc : ℚ) (c : Config)
    (h : branchAContinue m f minAcc fuel W A D acc = .single c) :
    ∃ A' acc3 D' acc4,
      stage3A f (act_sqnr_grouped_index m.aSqnr) W D fuel A acc minAcc
          = .ok (A', acc3) ∧
      stage4A f W A' fuel D acc3 minAcc = .ok (D', acc4) ∧
      c = ⟨W, A', D', acc4, memReduction m W⟩ := by
  unfold branchAContinue at h
  rcases h3 : stage3A f (act_sqnr_grouped_index m.aSqnr) W D fuel A acc minAcc
    with e | ⟨A', acc3⟩
  · rw [h3] at h; exact QOutcome.noConfusion h
  · rw [h3] at h
    dsimp only at h
    rcases h4 : stage4A f W A' fuel D acc3 minAcc with e | ⟨D', acc4⟩
    · rw [h4] at h; exact QOutcome.noConfusion h
    · rw [h4] at h
      dsimp only at h
      injection h with h'
      exact ⟨A', acc3, D', acc4, rfl, h4, h'.symm⟩

lemma qcapsnetsFrom2_single (m : ModelInfo) (f : Oracle)
    (topAcc tol memBudget : ℚ) (fuel : ℕ) (b1 : ℕ) (c : Config)
    (h : qcapsnetsFrom2 m f topAcc tol memBudget fuel b1 = .single c) :
    ∃ (W : List ℕ) (acc : ℚ),
      (∀ b ∈ W, 1 ≤ b) ∧
      branchAContinue m f (minimum_accuracy topAcc tol) fuel W
        (List.replicate m.n b1) (List.replicate m.drCount b1) acc = .single c := by
  simp only [qcapsnetsFrom2] at h
  by_cases hb : memBudget * 8 * 2 ^ 20 < (m.wcounts.sum : ℚ)
  · rw [if_pos hb] at h; exact QOutcome.noConfusion h
  · rw [if_neg hb] at h
    by_cases hz : m.wcounts.sum = 0
    · rw [if_pos hz] at h; exact QOutcome.noConfusion h
    · rw [if_neg hz] at h
      have hb2 : ∀ b ∈ List.replicate m.n
          (⌊memBudget * 8 * 2 ^ 20 / (m.wcounts.sum : ℚ)⌋.toNat), 1 ≤ b := by
        intro b hmem
        rw [List.eq_of_mem_replicate hmem]
        have hq : (1 : ℚ) ≤ memBudget * 8 * 2 ^ 20 / (m.wcounts.sum : ℚ) := by
          rw [le_div_iff (by exact_mod_cast Nat.pos_of_ne_zero hz)]
          simpa using not_lt.mp hb
        have hf : (1 : ℤ) ≤ ⌊memBudget * 8 * 2 ^ 20 / (m.wcounts.sum : ℚ)⌋ :=
          Int.le_floor.mpr (by exact_mod_cast hq)
        omega
      by_cases hacc : minimum_accuracy topAcc tol ≤
          f (List.replicate m.n (⌊memBudget * 8 * 2 ^ 20 / (m.wcounts.sum : ℚ)⌋.toNat))
            (List.replicate m.n b1) (List.replicate m.drCount b1)
      · rw [if_pos hacc] at h
        exact ⟨_, _, hb2, h⟩
      · rw [if_neg hacc] at h
        cases hr : step2RaiseLoop f (minimum_accuracy topAcc tol)
            (List.replicate m.n b1) (List.replicate m.drCount b1) fuel
            (List.replicate m.n (⌊memBudget * 8 * 2 ^ 20 / (m.wcounts.sum : ℚ)⌋.toNat))
            (f (List.replicate m.n (⌊memBudget * 8 * 2 ^ 20 / (m.wcounts.sum : ℚ)⌋.toNat))
              (List.replicate m.n b1) (List.replicate m.drCount b1)) with
        | none => rw [hr] at h; exact QOutcome.noConfusion h
        | some p =>
          obtain ⟨Wr, accr⟩ := p
          rw [hr] at h
          dsimp only at h
          have hWr : ∀ b ∈ Wr, 1 ≤ b :=
            step2RaiseLoop_ge_one f _ _ _ fuel _ _ _ _ hr hb2
          cases hl : step2LowerPhase f (minimum_accuracy topAcc tol)
              (memBudget * 8 * 2 ^ 20) m.wcounts
              (List.replicate m.n b1) (List.replicate m.drCount b1)
              (sqnrOrder m.wSqnr) Wr accr none with
          | error e => rw [hl] at h; exact QOutcome.noConfusion h
          | ok t =>
            obtain ⟨Wl, accl, fits⟩ := t
            rw [hl] at h
            dsimp only at h
            have hWl : ∀ b ∈ Wl, 1 ≤ b :=
              step2LowerPhase_ge_one f _ _ _ _ _ _ _ _ _ _ _ _ hl hWr
            cases fits with
            | true =>
              rw [if_pos rfl] at h
              exact ⟨_, _, hWl, h⟩
            | false =>
              simp at h

/-! ### C9 — ZeroDivisionError when no layer performs dynamic routing -/

/-- C9: for a model in which no leaf layer has both `capsule_layer` and
`dynamic_routing` set, the dynamic-routing bit list is empty, so any run
reaching Stage 4A divides its accuracy budget by `len(dr_quantization_bits)
= 0` — a ZeroDivisionError; consequently `qcapsnets` never returns a final
(single) configuration for such a model. -/
theorem c9_zero_division_no_dr (m : ModelInfo) (f : Oracle)
    (topAcc tol memBudget : ℚ) (fuel : ℕ)
    (hdr : m.drCount = 0) :
    (∀ (W A D : List ℕ) (acc minAcc : ℚ), D.length = 0 →
      stage4A f W A fuel D acc minAcc
        = .error "ZeroDivisionError step4a_accuracy_budget_per_step") ∧
    (∀ c : Config, qcapsnets m f topAcc tol memBudget fuel ≠ .single c) := by
  have h4 : ∀ (W A D : List ℕ) (acc minAcc : ℚ), D.length = 0 →
      stage4A f W A fuel D acc minAcc
        = .error "ZeroDivisionError step4a_accuracy_budget_per_step" := by
    intro W A D acc minAcc hD
    unfold stage4A
    rw [if_pos hD]
  refine ⟨h4, ?_⟩
  intro c hc
  unfold qcapsnets at hc
  cases hs : step1Search (step1Oracle m f) (step1_min_acc topAcc tol) fuel with
  | none => rw [hs] at hc; exact QOutcome.noConfusion hc
  | some p =>
    obtain ⟨b1, a1⟩ := p
    rw [hs] at hc
    obtain ⟨W, acc, _, hbr⟩ :=
      qcapsnetsFrom2_single m f topAcc tol memBudget fuel b1 c hc
    obtain ⟨A', acc3, D', acc4, _, h4', _⟩ :=
      branchAContinue_single m f _ fuel W _ _ acc c hbr
    rw [h4 W A' (List.replicate m.drCount b1) acc3 _ (by simp [hdr])] at h4'
    exact Except.noConfusion h4'

/-- Witness for C9: a model with one non-routing layer — the Stage 4A call
on the empty routing vector raises the ZeroDivisionError and the run never
returns a final configuration. -/
theorem c9_zero_division_no_dr_witness :
    c1wModel.drCount = 0 ∧
    stage4A constOracle [1] [1] 50 ([] : List ℕ) 100 90
      = .error "ZeroDivisionError step4a_accuracy_budget_per_step" ∧
    qcapsnets c1wModel constOracle 100 10 1 50
      ≠ .single ⟨[1], [1], [], 100, 1⟩ := by
  obtain ⟨h1, h2⟩ :=
    c9_zero_division_no_dr c1wModel constOracle 100 10 1 50 (by decide)
  exact ⟨by decide, h1 [1] [1] [] 100 90 rfl, h2 ⟨[1], [1], [], 100, 1⟩⟩

/-! ### List helpers for the bit-floor invariants -/

lemma getD_set_self (l : List ℕ) (i v : ℕ) (h : i < l.length) :
    (l.set i v).getD i 0 = v := by
  simp [List.getD_eq_getElem?_getD, List.getElem?_set_self, h]

lemma getD_set_ne (l : List ℕ) (i j v : ℕ) (h : j ≠ i) :
    (l.set i v).getD j 0 = l.getD j 0 := by
  simp [List.getD_eq_getElem?_getD, List.getElem?_set_ne (Ne.symm h)]

lemma getD_pos_lt_length (l : List ℕ) (i : ℕ) (h : 1 ≤ l.getD i 0) :
    i < l.length := by
  by_contra hle
  rw [List.getD_eq_getElem?_getD, List.getElem?_eq_none (by omega)] at h
  simp at h

/-! ### The activation groups partition the sorted index list -/

lemma insertByAsc_perm (x : ℕ × ℚ) (ys : List (ℕ × ℚ)) :
    List.Perm (insertByAsc x ys) (x :: ys) := by
  induction ys with
  | nil => simp [insertByAsc]
  | cons y ys ih =>
    rw [insertByAsc]
    by_cases h : y.2 ≤ x.2
    · rw [if_pos h]
      exact (ih.cons y).trans (List.Perm.swap x y ys)
    · rw [if_neg h]

lemma foldl_insertByAsc_perm :
    ∀ (l acc : List (ℕ × ℚ)),
      List.Perm (l.foldl (fun a p => insertByAsc p a) acc) (l ++ acc) := by
  intro l
  induction l with
  | nil => intro acc; simp
  | cons x xs ih =>
    intro acc
    have h1 : List.Perm ((x :: xs).foldl (fun a p => insertByAsc p a) acc)
        (xs ++ insertByAsc x acc) := by simpa using ih (insertByAsc x acc)
    have h2 : List.Perm (xs ++ insertByAsc x acc) (xs ++ (x :: acc)) :=
      List.Perm.append_left xs (insertByAsc_perm x acc)
    have h3 : List.Perm (xs ++ (x :: acc)) (x :: (xs ++ acc)) := List.perm_middle
    have h4 : List.Perm (x :: (xs ++ acc)) ((x :: xs) ++ acc) := by simp
    exact ((h1.trans h2).trans h3).trans h4

lemma act_sqnr_sorted_perm (sq : List ℚ) :
    List.Perm (act_sqnr_sorted sq) sq.enum := by
  simpa using foldl_insertByAsc_perm sq.enum []

lemma act_idxs_perm_range (sq : List ℚ) :
    List.Perm ((act_sqnr_sorted sq).map Prod.fst) (List.range sq.length) := by
  have h := (act_sqnr_sorted_perm sq).map Prod.fst
  rwa [List.enum_map_fst] at h

lemma act_idxs_nodup (sq : List ℚ) :
    ((act_sqnr_sorted sq).map Prod.fst).Nodup :=
  (act_idxs_perm_range sq).nodup_iff.mpr (List.nodup_range _)

lemma act_idxs_lt (sq : List ℚ) (i : ℕ)
    (h : i ∈ (act_sqnr_sorted sq).map Prod.fst) : i < sq.length := by
  have := (act_idxs_perm_range sq).mem_iff.mp h
  simpa using this

lemma flatten_map_singleton (l : List ℕ) :
    (l.map (fun i => [i])).flatten = l := by
  induction l with
  | nil => rfl
  | cons x xs ih => simp [ih]

lemma act_groups_flatten (sq : List ℚ) :
    (act_sqnr_grouped_index sq).flatten = (act_sqnr_sorted sq).map Prod.fst := by
  unfold act_sqnr_grouped_index
  set idxs := (act_sqnr_sorted sq).map Prod.fst with hidxs
  by_cases h : 4 < idxs.length
  · rw [if_pos h]
    simp only [List.flatten]
    have h4 : idxs.drop (2 * (idxs.length / 4)) =
        (idxs.drop (2 * (idxs.length / 4))).take (idxs.length / 4)
          ++ idxs.drop (3 * (idxs.length / 4)) := by
      conv_lhs => rw [← List.take_append_drop (idxs.length / 4)
        (idxs.drop (2 * (idxs.length / 4)))]
      rw [List.drop_drop]
      ring_nf
    have h3 : idxs.drop (idxs.length / 4) =
        (idxs.drop (idxs.length / 4)).take (idxs.length / 4)
          ++ idxs.drop (2 * (idxs.length / 4)) := by
      conv_lhs => rw [← List.take_append_drop (idxs.length / 4)
        (idxs.drop (idxs.length / 4))]
      rw [List.drop_drop]
      ring_nf
    calc idxs.take (idxs.length / 4) ++
          ((idxs.drop (idxs.length / 4)).take (idxs.length / 4) ++
            ((idxs.drop (2 * (idxs.length / 4))).take (idxs.length / 4) ++
              (idxs.drop (3 * (idxs.length / 4)) ++ [])))
        = idxs.take (idxs.length / 4) ++ idxs.drop (idxs.length / 4) := by
          rw [List.append_nil, ← h4, ← h3]
      _ = idxs := List.take_append_drop _ idxs
  · rw [if_neg h]
    exact flatten_map_singleton idxs

lemma act_groups_nodup_disjoint (sq : List ℚ) :
    (∀ g ∈ act_sqnr_grouped_index sq, g.Nodup) ∧
      (act_sqnr_grouped_index sq).Pairwise List.Disjoint := by
  have h : (act_sqnr_grouped_index sq).flatten.Nodup := by
    rw [act_groups_flatten]
    exact act_idxs_nodup sq
  rwa [List.nodup_flatten] at h

lemma act_groups_mem_lt (sq : List ℚ) (g : List ℕ) (i : ℕ)
    (hg : g ∈ act_sqnr_grouped_index sq) (hi : i ∈ g) : i < sq.length := by
  refine act_idxs_lt sq i ?_
  rw [← act_groups_flatten]
  exact List.mem_flatten.mpr ⟨g, hg, hi⟩

lemma act_groups_ne_nil (sq : List ℚ) (h : sq ≠ []) :
    act_sqnr_grouped_index sq ≠ [] := by
  unfold act_sqnr_grouped_index
  by_cases h4 : 4 < ((act_sqnr_sorted sq).map Prod.fst).length
  · rw [if_pos h4]
    simp
  · rw [if_neg h4]
    have hlen : ((act_sqnr_sorted sq).map Prod.fst).length = sq.length := by
      simpa using (act_idxs_perm_range sq).length_eq
    intro hc
    simp only [List.map_eq_nil_iff] at hc
    rw [hc] at hlen
    exact h (List.length_eq_zero.mp hlen.symm)

/-! ### Joint group decrement and rollback -/

lemma getD_oob (l : List ℕ) (i : ℕ) (h : l.length ≤ i) : l.getD i 0 = 0 := by
  rw [List.getD_eq_getElem?_getD, List.getElem?_eq_none (by omega)]
  rfl

lemma getD_eq_get (l : List ℕ) (j : ℕ) (hj : j < l.length) :
    l.getD j 0 = l.get ⟨j, hj⟩ := by
  simp [List.getD_eq_getElem?_getD, List.getElem?_eq_getElem hj]

lemma getD_replicate (n b j : ℕ) (h : j < n) :
    (List.replicate n b).getD j 0 = b := by
  rw [getD_eq_get _ _ (by simpa using h)]
  simp

lemma dec3AGroup_cons (i : ℕ) (rest : List ℕ) (A : List ℕ) (curr : ℕ) :
    dec3AGroup (i :: rest) A curr
      = dec3AGroup rest (A.set i (A.getD i 0 - 1))
          ((A.set i (A.getD i 0 - 1)).getD i 0) := rfl

lemma inc3AGroup_cons (i : ℕ) (rest : List ℕ) (A : List ℕ) :
    inc3AGroup (i :: rest) A
      = inc3AGroup rest (A.set i (A.getD i 0 + 1)) := rfl

lemma dec3AGroup_length (g : List ℕ) :
    ∀ (A : List ℕ) (curr : ℕ), (dec3AGroup g A curr).1.length = A.length := by
  induction g with
  | nil => intro A curr; rfl
  | cons i rest ih =>
    intro A curr
    rw [dec3AGroup_cons, ih]
    simp

lemma inc3AGroup_length (g : List ℕ) :
    ∀ A : List ℕ, (inc3AGroup g A).length = A.length := by
  induction g with
  | nil => intro A; rfl
  | cons i rest ih =>
    intro A
    rw [inc3AGroup_cons, ih]
    simp

lemma dec3AGroup_uniform (g : List ℕ) :
    ∀ (A : List ℕ) (curr v : ℕ), g.Nodup → (∀ i ∈ g, A.getD i 0 = v) →
      (∀ i ∈ g, (dec3AGroup g A curr).1.getD i 0 = v - 1) ∧
      (∀ j, j ∉ g → (dec3AGroup g A curr).1.getD j 0 = A.getD j 0) ∧
      (dec3AGroup g A curr).2 = (if g = [] then curr else v - 1) := by
  induction g with
  | nil =>
    intro A curr v _ _
    exact ⟨by simp, fun j _ => rfl, by simp [dec3AGroup]⟩
  | cons i rest ih =>
    intro A curr v hnd huni
    have hne : i ∉ rest := (List.nodup_cons.mp hnd).1
    have hndr : rest.Nodup := (List.nodup_cons.mp hnd).2
    have hvi : A.getD i 0 = v := huni i (by simp)
    have hA1i : (A.set i (A.getD i 0 - 1)).getD i 0 = v - 1 := by
      by_cases hlt : i < A.length
      · rw [getD_set_self _ _ _ hlt, hvi]
      · rw [List.set_eq_of_length_le (by omega)]
        have h0 : A.getD i 0 = 0 := getD_oob _ _ (by omega)
        omega
    have hA1rest : ∀ j ∈ rest, (A.set i (A.getD i 0 - 1)).getD j 0 = v := by
      intro j hj
      rw [getD_set_ne _ _ _ _ (fun hji => hne (by rwa [hji] at hj))]
      exact huni j (by simp [hj])
    obtain ⟨hmem, hout, hcurr⟩ :=
      ih (A.set i (A.getD i 0 - 1)) ((A.set i (A.getD i 0 - 1)).getD i 0) v hndr hA1rest
    rw [dec3AGroup_cons]
    refine ⟨?_, ?_, ?_⟩
    · intro j hj
      rcases List.mem_cons.mp hj with rfl | hjr
      · rw [hout j hne, hA1i]
      · exact hmem j hjr
    · intro j hj
      have hji : j ≠ i := fun hji => hj (by simp [hji])
      have hjr : j ∉ rest := fun hjr => hj (by simp [hjr])
      rw [hout j hjr, getD_set_ne _ _ _ _ hji]
    · rw [hcurr, hA1i]
      by_cases hre : rest = []
      · simp [hre]
      · simp [hre]

lemma inc3AGroup_getD_mono (g : List ℕ) :
    ∀ (A : List ℕ) (j : ℕ), A.getD j 0 ≤ (inc3AGroup g A).getD j 0 := by
  induction g with
  | nil => intro A j; exact le_refl _
  | cons i rest ih =>
    intro A j
    rw [inc3AGroup_cons]
    refine le_trans ?_ (ih (A.set i (A.getD i 0 + 1)) j)
    by_cases hji : j = i
    · subst hji
      by_cases hlt : j < A.length
      · rw [getD_set_self _ _ _ hlt]; omega
      · rw [List.set_eq_of_length_le (by omega)]
    · rw [getD_set_ne _ _ _ _ hji]

lemma inc3AGroup_getD_outside (g : List ℕ) :
    ∀ (A : List ℕ) (j : ℕ), j ∉ g → (inc3AGroup g A).getD j 0 = A.getD j 0 := by
  induction g with
  | nil => intro A j _; rfl
  | cons i rest ih =>
    intro A j hj
    rw [inc3AGroup_cons,
      ih _ j (fun hjr => hj (by simp [hjr])),
      getD_set_ne _ _ _ _ (fun hji => hj (by simp [hji]))]

/-! ### Stage 3A lower bounds -/

lemma step3AInner_ge (f : Oracle) (W D g : List ℕ) (floor : ℚ) (hg : g.Nodup) :
    ∀ (fuel : ℕ) (A : List ℕ) (curr : ℕ) (acc : ℚ) (prev : Option ℚ)
      (A' : List ℕ) (acc' : ℚ) (prev' : Option ℚ),
      step3AInner f W D g floor fuel A curr acc prev = .ok (A', acc', prev') →
      (∀ i ∈ g, A.getD i 0 = curr) →
      (∀ i ∈ g, min 2 curr ≤ A'.getD i 0) ∧
      (∀ j, j ∉ g → A'.getD j 0 = A.getD j 0) ∧ A'.length = A.length := by
  intro fuel
  induction fuel with
  | zero =>
    intro A curr acc prev A' acc' prev' h _
    exact Except.noConfusion h
  | succ n ih =>
    intro A curr acc prev A' acc' prev' h huni
    simp only [step3AInner] at h
    by_cases hacc : floor ≤ acc
    · rw [if_pos hacc] at h
      by_cases hcur : curr < 3
      · rw [if_pos hcur] at h
        simp at h
        obtain ⟨rfl, -, -⟩ := h
        exact ⟨fun i hi => by rw [huni i hi]; omega, fun j _ => rfl, rfl⟩
      · rw [if_neg hcur] at h
        rcases hdec : dec3AGroup g A curr with ⟨A2, curr2⟩
        rw [hdec] at h
        dsimp only at h
        obtain ⟨hmem2, hout2, hcurr2⟩ := dec3AGroup_uniform g A curr curr hg huni
        rw [hdec] at hmem2 hout2 hcurr2
        dsimp only at hmem2 hout2 hcurr2
        by_cases hge : g = []
        · subst hge
          obtain ⟨hm, ho, hl⟩ := ih A2 curr2 (f W A2 D) (some acc) A' acc' prev' h
            (by simp)
          refine ⟨by simp, fun j _ => ?_, ?_⟩
          · rw [ho j (by simp), hout2 j (by simp)]
          · rw [hl]
            have := dec3AGroup_length [] A curr
            rw [hdec] at this
            exact this
        · rw [if_neg hge] at hcurr2
          obtain ⟨hm, ho, hl⟩ := ih A2 curr2 (f W A2 D) (some acc) A' acc' prev' h
            (fun i hi => by rw [hmem2 i hi, hcurr2])
          refine ⟨?_, ?_, ?_⟩
          · intro i hi
            have := hm i hi
            rw [hcurr2] at this
            omega
          · intro j hj
            rw [ho j hj, hout2 j hj]
          · rw [hl]
            have := dec3AGroup_length g A curr
            rw [hdec] at this
            exact this
    · rw [if_neg hacc] at h
      cases prev with
      | none => exact Except.noConfusion h
      | some p =>
        simp at h
        obtain ⟨rfl, -, -⟩ := h
        refine ⟨?_, inc3AGroup_getD_outside g A, inc3AGroup_length g A⟩
        intro i hi
        have := inc3AGroup_getD_mono g A i
        rw [huni i hi] at this
        omega

lemma step3AGroups_ge (f : Oracle) (W D : List ℕ) (share : ℚ) (start : ℕ)
    (fuel : ℕ) :
    ∀ (gs : List (List ℕ)) (A : List ℕ) (acc : ℚ) (prev : Option ℚ) (floor : ℚ)
      (A' : List ℕ) (acc' : ℚ),
      step3AGroups f W D share start fuel gs A acc prev floor = .ok (A', acc') →
      (∀ g ∈ gs, g.Nodup) → gs.Pairwise List.Disjoint →
      (∀ g ∈ gs, ∀ i ∈ g, A.getD i 0 = start) →
      (∀ g ∈ gs, ∀ i ∈ g, min 2 start ≤ A'.getD i 0) ∧
      (∀ j, (∀ g ∈ gs, j ∉ g) → A'.getD j 0 = A.getD j 0) ∧
      A'.length = A.length := by
  intro gs
  induction gs with
  | nil =>
    intro A acc prev floor A' acc' h _ _ _
    simp [step3AGroups] at h
    obtain ⟨rfl, -⟩ := h
    exact ⟨by simp, fun j _ => rfl, rfl⟩
  | cons g gs' ih =>
    intro A acc prev floor A' acc' h hnd hdisj huni
    rw [step3AGroups] at h
    rcases hin : step3AInner f W D g (floor - share) fuel A start acc prev
      with e | ⟨A2, acc2, prev2⟩
    · rw [hin] at h; exact Except.noConfusion h
    · rw [hin] at h
      dsimp only at h
      obtain ⟨hm2, ho2, hl2⟩ :=
        step3AInner_ge f W D g (floor - share) (hnd g (by simp)) fuel A start acc
          prev A2 acc2 prev2 hin (huni g (by simp))
      have hdisj_head : ∀ g' ∈ gs', List.Disjoint g g' :=
        fun g' hg' => (List.pairwise_cons.mp hdisj).1 g' hg'
      have hnotin : ∀ g' ∈ gs', ∀ i ∈ g', i ∉ g := by
        intro g' hg' i hi hig
        exact hdisj_head g' hg' hig hi
      obtain ⟨hm', ho', hl'⟩ := ih A2 acc2 prev2 (floor - share) A' acc' h
        (fun g' hg' => hnd g' (by simp [hg']))
        (List.pairwise_cons.mp hdisj).2
        (by
          intro g' hg' i hi
          rw [ho2 i (hnotin g' hg' i hi)]
          exact huni g' (by simp [hg']) i hi)
      refine ⟨?_, ?_, hl'.trans hl2⟩
      · intro g0 hg0 i hi
        rcases List.mem_cons.mp hg0 with rfl | hg0'
        · rw [ho' i (fun g' hg' => hdisj_head g' hg' hi)]
          exact hm2 i hi
        · exact hm' g0 hg0' i hi
      · intro j hj
        rw [ho' j (fun g' hg' => hj g' (by simp [hg'])),
          ho2 j (hj g (by simp))]

lemma stage3A_ge (f : Oracle) (groups : List (List ℕ)) (W D : List ℕ)
    (fuel : ℕ) (A A' : List ℕ) (acc minAcc acc' : ℚ)
    (h : stage3A f groups W D fuel A acc minAcc = .ok (A', acc'))
    (hnd : ∀ g ∈ groups, g.Nodup) (hdisj : groups.Pairwise List.Disjoint)
    (huni : ∀ g ∈ groups, ∀ i ∈ g, A.getD i 0 = A.getD 0 0) :
    (∀ g ∈ groups, ∀ i ∈ g, min 2 (A.getD 0 0) ≤ A'.getD i 0) ∧
    (∀ j, (∀ g ∈ groups, j ∉ g) → A'.getD j 0 = A.getD j 0) ∧
    A'.length = A.length := by
  unfold stage3A at h
  by_cases hz : groups.length = 0
  · rw [if_pos hz] at h; exact Except.noConfusion h
  · rw [if_neg hz] at h
    exact step3AGroups_ge f W D _ _ fuel groups A acc none acc A' acc' h hnd
      hdisj huni

/-! ### Stage 4A lower bounds -/

lemma step4AInner_ge (f : Oracle) (W A : List ℕ) (l : ℕ) (floor : ℚ) (mn : ℕ)
    (hmn : mn ≤ 2) :
    ∀ (fuel : ℕ) (D : List ℕ) (acc : ℚ) (prev : Option ℚ)
      (D' : List ℕ) (acc' : ℚ) (prev' : Option ℚ),
      step4AInner f W A l floor fuel D acc prev = .ok (D', acc', prev') →
      (∀ b ∈ D, mn ≤ b) → ∀ b ∈ D', mn ≤ b := by
  intro fuel
  induction fuel with
  | zero =>
    intro D acc prev D' acc' prev' h _
    exact Except.noConfusion h
  | succ n ih =>
    intro D acc prev D' acc' prev' h hD
    simp only [step4AInner] at h
    by_cases hacc : floor ≤ acc
    · rw [if_pos hacc] at h
      by_cases hl : D.getD l 0 < 3
      · rw [if_pos hl] at h
        simp at h
        obtain ⟨rfl, -, -⟩ := h
        exact hD
      · rw [if_neg hl] at h
        refine ih _ _ _ _ _ _ h ?_
        intro b hb
        rcases List.mem_or_eq_of_mem_set hb with hmem | rfl
        · exact hD b hmem
        · omega
    · rw [if_neg hacc] at h
      cases prev with
      | none => exact Except.noConfusion h
      | some p =>
        simp at h
        obtain ⟨rfl, -, -⟩ := h
        intro b hb
        by_cases hlt : l < D.length
        · rcases List.mem_or_eq_of_mem_set hb with hmem | rfl
          · exact hD b hmem
          · have hmem : D[l]?.getD 0 ∈ D := by
              rw [← List.getD_eq_getElem?_getD, getD_eq_get _ _ hlt]
              exact List.get_mem D l hlt
            have := hD _ hmem
            omega
        · rw [List.set_eq_of_length_le (by omega)] at hb
          exact hD b hb

lemma step4ALayers_ge (f : Oracle) (W A : List ℕ) (share : ℚ) (fuel : ℕ)
    (mn : ℕ) (hmn : mn ≤ 2) :
    ∀ (ls : List ℕ) (D : List ℕ) (acc : ℚ) (prev : Option ℚ) (floor : ℚ)
      (D' : List ℕ) (acc' : ℚ),
      step4ALayers f W A share fuel ls D acc prev floor = .ok (D', acc') →
      (∀ b ∈ D, mn ≤ b) → ∀ b ∈ D', mn ≤ b := by
  intro ls
  induction ls with
  | nil =>
    intro D acc prev floor D' acc' h hD
    simp [step4ALayers] at h
    obtain ⟨rfl, -⟩ := h
    exact hD
  | cons l ls' ih =>
    intro D acc prev floor D' acc' h hD
    rw [step4ALayers] at h
    rcases hin : step4AInner f W A l (floor - share) fuel D acc prev
      with e | ⟨D2, acc2, prev2⟩
    · rw [hin] at h; exact Except.noConfusion h
    · rw [hin] at h
      dsimp only at h
      exact ih _ _ _ _ _ _ h
        (step4AInner_ge f W A l (floor - share) mn hmn fuel D acc prev D2 acc2
          prev2 hin hD)

lemma stage4A_ge (f : Oracle) (W A : List ℕ) (fuel : ℕ) (D D' : List ℕ)
    (acc minAcc acc' : ℚ) (mn : ℕ) (hmn : mn ≤ 2)
    (h : stage4A f W A fuel D acc minAcc = .ok (D', acc'))
    (hD : ∀ b ∈ D, mn ≤ b) : ∀ b ∈ D', mn ≤ b := by
  unfold stage4A at h
  by_cases hz : D.length = 0
  · rw [if_pos hz] at h; exact Except.noConfusion h
  · rw [if_neg hz] at h
    exact step4ALayers_ge f W A _ fuel mn hmn _ D acc none acc D' acc' h hD

/-! ### Stage 1 candidates stay in the range 1..32 (for any oracle) -/

lemma s1Inv_step (cur prev nxt : ℕ) (h : s1Inv cur prev)
    (hne : bdist cur prev ≠ 1)
    (hn : nxt = (2 * cur - bdist cur prev) / 2 ∨
          nxt = (2 * cur + bdist cur prev) / 2) :
    (1 ≤ nxt ∧ nxt ≤ 32) ∧ s1Inv nxt cur := by
  obtain ⟨e, k, he4, hd, hc, hb⟩ := h
  have he1 : 1 ≤ e := by
    rcases Nat.eq_zero_or_pos e with rfl | h1
    · rw [pow_zero] at hd; exact absurd hd hne
    · exact h1
  rcases hn with rfl | rfl
  · refine ⟨⟨?_, ?_⟩, e - 1, 2 * k, by omega, ?_, ?_, ?_⟩ <;>
      (simp only [bdist] at hd ⊢; interval_cases e <;> omega)
  · refine ⟨⟨?_, ?_⟩, e - 1, 2 * k + 1, by omega, ?_, ?_, ?_⟩ <;>
      (simp only [bdist] at hd ⊢; interval_cases e <;> omega)

lemma step1LoopB_range (sat : ℕ → Bool) :
    ∀ (fuel : ℕ) (cur prev : ℕ) (rest : List ℕ) (rsats : List Bool) (b : ℕ),
      (∀ x ∈ cur :: prev :: rest, 1 ≤ x ∧ x ≤ 32) → s1Inv cur prev →
      step1LoopB sat fuel (cur :: prev :: rest) rsats = some b →
      1 ≤ b ∧ b ≤ 32 := by
  intro fuel
  induction fuel with
  | zero =>
    intro cur prev rest rsats b _ _ h
    exact Option.noConfusion h
  | succ n ih =>
    intro cur prev rest rsats b hb hinv h
    simp only [step1LoopB] at h
    by_cases hd : bdist cur prev = 1
    · rw [if_pos hd] at h
      cases hfi : firstIdx (fun x => x) (sat cur :: rsats) with
      | none => rw [hfi] at h; exact Option.noConfusion h
      | some k =>
        rw [hfi] at h
        dsimp only at h
        exact hb b (List.get?_mem h)
    · rw [if_neg hd] at h
      obtain ⟨⟨h1, h2⟩, hinv'⟩ :=
        s1Inv_step cur prev
          (if sat cur then (2 * cur - bdist cur prev) / 2
           else (2 * cur + bdist cur prev) / 2)
          hinv hd (by cases hsc : sat cur <;> simp [hsc])
      refine ih _ cur (prev :: rest) _ b ?_ hinv' h
      intro x hx
      rcases List.mem_cons.mp hx with rfl | hx'
      · exact ⟨h1, h2⟩
      · exact hb x hx'

lemma step1SearchB_range (sat : ℕ → Bool) (fuel : ℕ) (b : ℕ)
    (h : step1SearchB sat fuel = some b) : 1 ≤ b ∧ b ≤ 32 := by
  unfold step1SearchB at h
  by_cases h32 : sat 32 = true
  · rw [if_pos h32] at h
    refine step1LoopB_range sat fuel 16 32 [] [true] b ?_ ?_ h
    · intro x hx
      simp at hx
      rcases hx with rfl | rfl <;> omega
    · exact ⟨4, 0, by omega, by simp [bdist], by norm_num, by norm_num⟩
  · rw [if_neg h32] at h
    simp at h
    omega

lemma step1Search_range (g : ℕ → ℚ) (minA : ℚ) (fuel : ℕ) (p : ℕ × ℚ)
    (h : step1Search g minA fuel = some p) : 1 ≤ p.1 ∧ p.1 ≤ 32 := by
  have hf := step1Search_fst g minA fuel
  rw [h] at hf
  exact step1SearchB_range _ fuel p.1 hf.symm

/-! ### C10 — UnboundLocalError when the raise phase ends exactly at the floor -/

lemma step2LowerLoop_no_iter (f : Oracle) (minAcc : ℚ) (A D : List ℕ) (idx : ℕ)
    (fuel : ℕ) (W : List ℕ) (acc : ℚ) (prev : Option ℚ) (h : ¬ minAcc < acc) :
    step2LowerLoop f minAcc A D idx fuel W acc prev = (W, acc, prev) := by
  cases fuel with
  | zero => rfl
  | succ n =>
    rw [step2LowerLoop, if_neg]
    intro hc
    exact h hc.1

/-- C10: if Stage 2 enters its raise phase (the uniform-`b2` accuracy is
below the floor) and the raise phase terminates with accuracy exactly equal
to `minimum_accuracy`, then the first layer of the lower phase runs zero
iterations of its inner loop and reads `prev_step2_acc` before any
assignment: the run aborts with an UnboundLocalError instead of producing a
configuration. -/
theorem c10_unbound_local_on_exact_floor (m : ModelInfo) (f : Oracle)
    (topAcc tol memBudget : ℚ) (fuel : ℕ) (b1 : ℕ) (Wr : List ℕ)
    (hfeas : ¬ memBudget * 8 * 2 ^ 20 < (m.wcounts.sum : ℚ))
    (hpos : m.wcounts.sum ≠ 0)
    (henter : f (List.replicate m.n (⌊memBudget * 8 * 2 ^ 20 / (m.wcounts.sum : ℚ)⌋.toNat))
        (List.replicate m.n b1) (List.replicate m.drCount b1)
      < minimum_accuracy topAcc tol)
    (hraise : step2RaiseLoop f (minimum_accuracy topAcc tol)
        (List.replicate m.n b1) (List.replicate m.drCount b1) fuel
        (List.replicate m.n (⌊memBudget * 8 * 2 ^ 20 / (m.wcounts.sum : ℚ)⌋.toNat))
        (f (List.replicate m.n (⌊memBudget * 8 * 2 ^ 20 / (m.wcounts.sum : ℚ)⌋.toNat))
          (List.replicate m.n b1) (List.replicate m.drCount b1))
      = some (Wr, minimum_accuracy topAcc tol))
    (horder : sqnrOrder m.wSqnr ≠ []) :
    qcapsnetsFrom2 m f topAcc tol memBudget fuel b1
      = .crash "UnboundLocalError prev_step2_acc" := by
  simp only [qcapsnetsFrom2]
  rw [if_neg hfeas, if_neg hpos, if_neg (not_le.mpr henter), hraise]
  dsimp only
  cases ho : sqnrOrder m.wSqnr with
  | nil => exact absurd ho horder
  | cons idx rest =>
    have hlayer : step2LowerLayer f (minimum_accuracy topAcc tol)
        (List.replicate m.n b1) (List.replicate m.drCount b1) idx Wr
        (minimum_accuracy topAcc tol) none
        = .error "UnboundLocalError prev_step2_acc" := by
      unfold step2LowerLayer
      rw [step2LowerLoop_no_iter f _ _ _ idx _ Wr _ none (lt_irrefl _)]
    simp only [step2LowerPhase]
    rw [hlayer]

/-- Witness for C10: one layer with one weight, budget 2 bits, oracle `f10`:
`b2 = 2` scores 80 (below the floor 90), the raise phase stops at 3 bits
with accuracy exactly 90, and the run crashes with the UnboundLocalError. -/
theorem c10_unbound_local_on_exact_floor_witness :
    (¬ (2 / 2 ^ 23 : ℚ) * 8 * 2 ^ 20 < (md10.wcounts.sum : ℚ)) ∧
    md10.wcounts.sum ≠ 0 ∧
    (f10 (List.replicate md10.n
        (⌊(2 / 2 ^ 23 : ℚ) * 8 * 2 ^ 20 / (md10.wcounts.sum : ℚ)⌋.toNat))
        (List.replicate md10.n 32) (List.replicate md10.drCount 32)
      < minimum_accuracy 100 10) ∧
    step2RaiseLoop f10 (minimum_accuracy 100 10)
        (List.replicate md10.n 32) (List.replicate md10.drCount 32) 50
        (List.replicate md10.n
          (⌊(2 / 2 ^ 23 : ℚ) * 8 * 2 ^ 20 / (md10.wcounts.sum : ℚ)⌋.toNat))
        (f10 (List.replicate md10.n
            (⌊(2 / 2 ^ 23 : ℚ) * 8 * 2 ^ 20 / (md10.wcounts.sum : ℚ)⌋.toNat))
          (List.replicate md10.n 32) (List.replicate md10.drCount 32))
      = some ([3], minimum_accuracy 100 10) ∧
    sqnrOrder md10.wSqnr ≠ [] ∧
    qcapsnetsFrom2 md10 f10 100 10 (2 / 2 ^ 23) 50 32
      = .crash "UnboundLocalError prev_step2_acc" := by
  have hfeas : ¬ (2 / 2 ^ 23 : ℚ) * 8 * 2 ^ 20 < (md10.wcounts.sum : ℚ) := by
    norm_num [md10]
  have hpos : md10.wcounts.sum ≠ 0 := by norm_num [md10]
  have hb2 : (⌊(2 / 2 ^ 23 : ℚ) * 8 * 2 ^ 20 / (md10.wcounts.sum : ℚ)⌋.toNat) = 2 := by
    norm_num [md10]
    decide
  have henter : f10 (List.replicate md10.n
        (⌊(2 / 2 ^ 23 : ℚ) * 8 * 2 ^ 20 / (md10.wcounts.sum : ℚ)⌋.toNat))
        (List.replicate md10.n 32) (List.replicate md10.drCount 32)
      < minimum_accuracy 100 10 := by
    rw [hb2]
    norm_num [md10, f10, ModelInfo.n, ModelInfo.drCount, minimum_accuracy]
  have hraise : step2RaiseLoop f10 (minimum_accuracy 100 10)
        (List.replicate md10.n 32) (List.replicate md10.drCount 32) 50
        (List.replicate md10.n
          (⌊(2 / 2 ^ 23 : ℚ) * 8 * 2 ^ 20 / (md10.wcounts.sum : ℚ)⌋.toNat))
        (f10 (List.replicate md10.n
            (⌊(2 / 2 ^ 23 : ℚ) * 8 * 2 ^ 20 / (md10.wcounts.sum : ℚ)⌋.toNat))
          (List.replicate md10.n 32) (List.replicate md10.drCount 32))
      = some ([3], minimum_accuracy 100 10) := by
    rw [hb2]
    norm_num [md10, f10, ModelInfo.n, ModelInfo.drCount, minimum_accuracy,
      step2RaiseLoop]
  have horder : sqnrOrder md10.wSqnr ≠ [] := by decide
  exact ⟨hfeas, hpos, henter, hraise, horder,
    c10_unbound_local_on_exact_floor md10 f10 100 10 (2 / 2 ^ 23) 50 32 [3]
      hfeas hpos henter hraise horder⟩

/-- Numeral form of `Int.toNat`, used when evaluating concrete runs. -/
lemma int_toNat_ofNat (n : ℕ) [n.AtLeastTwo] :
    (OfNat.ofNat n : ℤ).toNat = OfNat.ofNat n := rfl

set_option maxRecDepth 200000 in
lemma c2_run_eval :
    qcapsnets md2 f2 100 20 (400 / 2 ^ 23) 8
      = .single ⟨[40], [2], [2], 91, 4 / 5⟩ := by
  norm_num [qcapsnets, qcapsnetsFrom2, step1Search, step1Loop, step1Oracle, md2, f2,
    ModelInfo.n, ModelInfo.drCount, step1_min_acc, minimum_accuracy, bdist, firstIdx,
    branchAContinue, stage3A, step3AGroups, step3AInner, dec3AGroup, inc3AGroup,
    stage4A, step4ALayers, step4AInner, act_sqnr_grouped_index, act_sqnr_sorted,
    insertByAsc, memReduction, weightMemoryBits, List.enum, List.enumFrom,
    memErrText, int_toNat_ofNat]
  norm_num [show Int.toNat 40 = 40 from rfl, f2]

/-- Counterexample to C2 as stated: a run in which the final configuration
has weight bits `[40]` (the uncapped Stage 2 uniform candidate exceeds 32)
and activation and dynamic-routing bits `[2]` (the Stage 3A and 4A loops
decrement from 3 to 2 and then stop without rollback), violating both the
3-bit floors and the 32-bit cap. -/
theorem c2_bit_width_bounds_counterexample :
    qcapsnets md2 f2 100 20 (400 / 2 ^ 23) 8
        = .single ⟨[40], [2], [2], 91, 4 / 5⟩ ∧
    ¬ c2ClaimedBounds (qcapsnets md2 f2 100 20 (400 / 2 ^ 23) 8) := by
  refine ⟨c2_run_eval, ?_⟩
  intro hcl
  obtain ⟨hw, ha, -⟩ := hcl _ c2_run_eval
  have h1 := (ha 2 (by simp)).1
  omega

/-- C2 (amended): for every run of `qcapsnets` on a model whose activation
statistics align with its layer list, if the run returns a final
configuration then every weight bit-width is at least 1, the Stage 1
uniform bit-width lies in `[1, 32]`, and every activation and
dynamic-routing bit-width is at least `min 2 b1` where `b1` is the Stage 1
bit-width — hence at least 1 always and at least 2 whenever Stage 1 chose
at least 2 bits.  The 3-bit floors and the 32-bit cap of the original
claim do not hold. -/
theorem c2_bit_floors_amended (m : ModelInfo) (f : Oracle)
    (topAcc tol memBudget : ℚ) (fuel : ℕ) (c : Config)
    (halign : m.aSqnr.length = m.wcounts.length)
    (h : qcapsnets m f topAcc tol memBudget fuel = .single c) :
    (∀ b ∈ c.w, 1 ≤ b) ∧
    ∃ p : ℕ × ℚ,
      step1Search (step1Oracle m f) (step1_min_acc topAcc tol) fuel = some p ∧
      1 ≤ p.1 ∧ p.1 ≤ 32 ∧
      (∀ b ∈ c.a, min 2 p.1 ≤ b) ∧ (∀ b ∈ c.dr, min 2 p.1 ≤ b) := by
  unfold qcapsnets at h
  cases hs : step1Search (step1Oracle m f) (step1_min_acc topAcc tol) fuel with
  | none => rw [hs] at h; exact QOutcome.noConfusion h
  | some p =>
    obtain ⟨b1, a1⟩ := p
    rw [hs] at h
    dsimp only at h
    obtain ⟨hr1, hr2⟩ := step1Search_range _ _ _ _ hs
    obtain ⟨W, acc, hW1, hbr⟩ :=
      qcapsnetsFrom2_single m f topAcc tol memBudget fuel b1 c h
    obtain ⟨A', acc3, D', acc4, h3, h4, hc⟩ :=
      branchAContinue_single m f (minimum_accuracy topAcc tol) fuel W
        (List.replicate m.n b1) (List.replicate m.drCount b1) acc c hbr
    subst hc
    obtain ⟨hnd, hdisj⟩ := act_groups_nodup_disjoint m.aSqnr
    have hgne : act_sqnr_grouped_index m.aSqnr ≠ [] := by
      intro hge
      rw [hge] at h3
      simp [stage3A] at h3
    have hsq : m.aSqnr ≠ [] := by
      intro hsqe
      apply hgne
      rw [hsqe]
      rfl
    have hn1 : 1 ≤ m.n := by
      have hpos := List.length_pos.mpr hsq
      unfold ModelInfo.n
      omega
    have hstart : (List.replicate m.n b1).getD 0 0 = b1 :=
      getD_replicate _ _ _ (by omega)
    have huni : ∀ g ∈ act_sqnr_grouped_index m.aSqnr, ∀ i ∈ g,
        (List.replicate m.n b1).getD i 0 = (List.replicate m.n b1).getD 0 0 := by
      intro g hg i hi
      have hlt := act_groups_mem_lt m.aSqnr g i hg hi
      rw [hstart, getD_replicate m.n b1 i (by unfold ModelInfo.n; omega)]
    obtain ⟨hm3, ho3, hl3⟩ :=
      stage3A_ge f (act_sqnr_grouped_index m.aSqnr) W
        (List.replicate m.drCount b1) fuel (List.replicate m.n b1) A' acc
        (minimum_accuracy topAcc tol) acc3 h3 hnd hdisj huni
    simp only [hstart] at hm3
    have hA'len : A'.length = m.n := by rw [hl3]; simp
    have hact : ∀ b ∈ A', min 2 b1 ≤ b := by
      intro b hbmem
      obtain ⟨nfin, hget⟩ := List.mem_iff_get.mp hbmem
      have hj : nfin.1 < A'.length := nfin.2
      have hbD : A'.getD nfin.1 0 = b := by
        rw [getD_eq_get _ _ hj]
        convert hget
      by_cases hjg : ∀ g ∈ act_sqnr_grouped_index m.aSqnr, nfin.1 ∉ g
      · rw [ho3 nfin.1 hjg, getD_replicate m.n b1 nfin.1 (by omega)] at hbD
        omega
      · push_neg at hjg
        obtain ⟨g, hg, hjg'⟩ := hjg
        have := hm3 g hg nfin.1 hjg'
        omega
    have hdr : ∀ b ∈ D', min 2 b1 ≤ b := by
      refine stage4A_ge f W A' fuel (List.replicate m.drCount b1) D' acc3
        (minimum_accuracy topAcc tol) acc4 (min 2 b1) (min_le_left _ _) h4 ?_
      intro b hbmem
      rw [List.eq_of_mem_replicate hbmem]
      exact min_le_right _ _
    exact ⟨hW1, (b1, a1), rfl, hr1, hr2, hact, hdr⟩

/-- Witness for the amended C2 at the concrete counterexample run: the
hypotheses hold there and the weight bit 40 of the returned configuration
is at least 1 by the amended theorem. -/
theorem c2_bit_floors_amended_witness :
    md2.aSqnr.length = md2.wcounts.length ∧
    qcapsnets md2 f2 100 20 (400 / 2 ^ 23) 8
      = .single ⟨[40], [2], [2], 91, 4 / 5⟩ ∧
    1 ≤ (40 : ℕ) := by
  refine ⟨by decide, c2_run_eval, ?_⟩
  obtain ⟨hw, -⟩ :=
    c2_bit_floors_amended md2 f2 100 20 (400 / 2 ^ 23) 8 _ (by decide) c2_run_eval
  exact hw 40 (by simp)

/-! ### C3 — the Stage 2 lower phase -/

lemma step2LowerLoop_prev_pass (f : Oracle) (minAcc : ℚ) (A D : List ℕ)
    (idx : ℕ) :
    ∀ (fuel : ℕ) (W : List ℕ) (acc : ℚ) (prev : Option ℚ),
      (step2LowerLoop f minAcc A D idx fuel W acc prev).2.2 = prev ∨
      ∃ q, (step2LowerLoop f minAcc A D idx fuel W acc prev).2.2 = some q ∧
        minAcc < q := by
  intro fuel
  induction fuel with
  | zero => intro W acc prev; exact Or.inl rfl
  | succ n ih =>
    intro W acc prev
    rw [step2LowerLoop]
    by_cases hc : minAcc < acc ∧ 1 < W.getD idx 0
    · rw [if_pos hc]
      rcases ih (W.set idx (W.getD idx 0 - 1))
          (f (W.set idx (W.getD idx 0 - 1)) A D) (some acc) with h0 | ⟨q, hq, hmq⟩
      · exact Or.inr ⟨acc, h0, hc.1⟩
      · exact Or.inr ⟨q, hq, hmq⟩
    · rw [if_neg hc]
      exact Or.inl rfl

lemma step2LowerLayer_pass (f : Oracle) (minAcc : ℚ) (A D : List ℕ)
    (idx : ℕ) (W : List ℕ) (acc : ℚ) (prev : Option ℚ) (W' : List ℕ)
    (acc' : ℚ) (prev' : Option ℚ)
    (h : step2LowerLayer f minAcc A D idx W acc prev = .ok (W', acc', prev'))
    (hprev : ∀ p, prev = some p → minAcc < p) :
    minAcc < acc' ∧ prev' = some acc' := by
  unfold step2LowerLayer at h
  rcases hl : step2LowerLoop f minAcc A D idx (W.getD idx 0 + 1) W acc prev
    with ⟨W0, acc0, prev0⟩
  rw [hl] at h
  dsimp only at h
  cases prev0 with
  | none => exact Except.noConfusion h
  | some p =>
    simp at h
    obtain ⟨-, rfl, rfl⟩ := h
    have hpr := step2LowerLoop_prev_pass f minAcc A D idx
      (W.getD idx 0 + 1) W acc prev
    rw [hl] at hpr
    dsimp only at hpr
    rcases hpr with h0 | ⟨q, hq, hmq⟩
    · exact ⟨hprev p h0.symm, rfl⟩
    · injection hq with hq'
      exact ⟨hq' ▸ hmq, rfl⟩

lemma c3_run_eval :
    step2LowerPhase f3 90 0 [5] [32] [] [0] [3] 95 none
      = .ok ([3], 95, false) := by
  norm_num [step2LowerPhase, step2LowerLayer, step2LowerLoop, f3,
    weightMemoryBits]

/-- Counterexample to C3 as stated: on a single layer entering the lower
phase at 3 bits with accuracy 95 and floor 90, the code restores the layer
to 3 bits with accuracy 95 even though the loop exited at an accuracy
exactly on the floor with a passing configuration, whereas the claimed
behaviour (decrement while accuracy stays at or above the floor and bits
exceed 1, restore only on a violation) would carry 1 bit with accuracy 90
to the next stage. -/
theorem c3_lower_phase_counterexample :
    step2LowerPhase f3 90 0 [5] [32] [] [0] [3] 95 none
        = .ok ([3], 95, false) ∧
    step2LowerPhaseClaim f3 90 0 [5] [32] [] [0] [3] 95 = ([1], 90, false) ∧
    (([3], (95 : ℚ)) ≠ (([1] : List ℕ), (90 : ℚ))) := by
  refine ⟨c3_run_eval, ?_, by simp⟩
  norm_num [step2LowerPhaseClaim, step2LowerLoopClaim, f3, weightMemoryBits]

/-- C3 (amended): in the Stage 2 lower phase, each visited layer's
bit-width is decremented while the accuracy stays strictly above
`minimum_accuracy` and the bit-width exceeds 1, and when the layer's loop
exits — whether by an accuracy violation, by landing exactly on the floor,
or by reaching bit-width 1 — the bit-width is unconditionally incremented
by 1 and the accuracy is rolled back to the remembered pre-decrement value
(which is shared across layers and strictly above the floor whenever it is
assigned).  Consequently, whenever the phase completes without crashing and
the carried accuracy was strictly passing on entry, the final accuracy is
strictly above the floor, the `fits` flag truthfully reports that the
recomputed total weight memory fits the budget, and no weight bit-width
drops below 1. -/
theorem c3_lower_phase_amended (f : Oracle) (minAcc budgetBits : ℚ)
    (wc A D : List ℕ) :
    ∀ (idxs W : List ℕ) (acc : ℚ) (prev : Option ℚ) (W' : List ℕ)
      (acc' : ℚ) (fits : Bool),
      step2LowerPhase f minAcc budgetBits wc A D idxs W acc prev
        = .ok (W', acc', fits) →
      minAcc < acc → (∀ p, prev = some p → minAcc < p) →
      (minAcc < acc' ∧
       (fits = true → (weightMemoryBits W' wc : ℚ) ≤ budgetBits) ∧
       ((∀ b ∈ W, 1 ≤ b) → ∀ b ∈ W', 1 ≤ b)) := by
  intro idxs
  induction idxs with
  | nil =>
    intro W acc prev W' acc' fits h hacc hprev
    simp [step2LowerPhase] at h
    obtain ⟨rfl, rfl, rfl⟩ := h
    exact ⟨hacc, fun hf => absurd hf (by decide), fun hW => hW⟩
  | cons idx rest ih =>
    intro W acc prev W' acc' fits h hacc hprev
    rw [step2LowerPhase] at h
    cases hl : step2LowerLayer f minAcc A D idx W acc prev with
    | error e => rw [hl] at h; exact Except.noConfusion h
    | ok t =>
      obtain ⟨W1, p1, prev1⟩ := t
      rw [hl] at h
      dsimp only at h
      obtain ⟨hp1, hprev1⟩ :=
        step2LowerLayer_pass f minAcc A D idx W acc prev W1 p1 prev1 hl hprev
      by_cases hm : (weightMemoryBits W1 wc : ℚ) ≤ budgetBits
      · rw [if_pos hm] at h
        simp at h
        obtain ⟨rfl, rfl, rfl⟩ := h
        exact ⟨hp1, fun _ => hm,
          fun hW => step2LowerLayer_ge_one f minAcc A D idx W acc prev W1 p1
            prev1 hl hW⟩
      · rw [if_neg hm] at h
        obtain ⟨h1, h2, h3⟩ := ih W1 p1 prev1 W' acc' fits h hp1
          (fun p hp => by
            rw [hprev1] at hp
            injection hp with hp'
            exact hp' ▸ hp1)
        exact ⟨h1, h2, fun hW => h3
          (step2LowerLayer_ge_one f minAcc A D idx W acc prev W1 p1 prev1
            hl hW)⟩

/-- Witness for the amended C3 at the concrete counterexample run: that run
completes without crashing and its final accuracy 95 is strictly above the
floor 90, by the amended theorem. -/
theorem c3_lower_phase_amended_witness :
    step2LowerPhase f3 90 0 [5] [32] [] [0] [3] 95 none
        = .ok ([3], 95, false) ∧
    (90 : ℚ) < 95 := by
  refine ⟨c3_run_eval, ?_⟩
  exact (c3_lower_phase_amended f3 90 0 [5] [32] [] [0] [3] 95 none [3] 95
    false c3_run_eval (by norm_num) (fun p hp => Option.noConfusion hp)).1

/-! ### C7 — the Stage 3A group descent -/

lemma c7_run_eval :
    stage3A constOracle [[0]] [5] [] 9 [3] 100 0 = .ok ([2], 100) := by
  norm_num [stage3A, step3AGroups, step3AInner, dec3AGroup, inc3AGroup,
    constOracle]

/-- Counterexample to C7 as stated: one group holding the single layer,
entered at 3 activation bits with a constant oracle.  The code tests the
tracked bit-width against 3 before the decrement, so it decrements the
group once more and returns the layer at 2 bits, below the claimed 3-bit
group floor; the claimed behaviour (never let a layer of the group drop
below 3 bits) would leave the layer at 3 bits. -/
theorem c7_group_floor_counterexample :
    stage3A constOracle [[0]] [5] [] 9 [3] 100 0 = .ok ([2], 100) ∧
    stage3AClaim constOracle [[0]] [5] [] 9 [3] 100 0 = .ok ([3], 100) ∧
    (2 : ℕ) < 3 := by
  refine ⟨c7_run_eval, ?_, by norm_num⟩
  norm_num [stage3AClaim, step3AGroupsClaim, step3AInnerClaim, dec3AGroup,
    constOracle]

/-- C7 (amended): Stage 3A's accuracy budget is 55% of
`stage2Accuracy - minimum_accuracy` divided evenly across the groups, with
the per-group floor lowered by one share per group, and each group is
decremented jointly by one bit per oracle call — but the bit guard tests
the tracked bit-width before the decrement, so the loop stops one step
late: when Stage 3A returns, every layer of every group (entered at the
uniform bit-width `A[0]`, with nodup, pairwise-disjoint groups) holds at
least `min 2 A[0]` bits rather than the claimed 3, layers outside every
group are untouched, and the group list is necessarily non-empty. -/
theorem c7_act_floor_amended (f : Oracle) (groups : List (List ℕ))
    (W D : List ℕ) (fuel : ℕ) (A A' : List ℕ) (acc minAcc acc' : ℚ)
    (h : stage3A f groups W D fuel A acc minAcc = .ok (A', acc'))
    (hnd : ∀ g ∈ groups, g.Nodup) (hdisj : groups.Pairwise List.Disjoint)
    (huni : ∀ g ∈ groups, ∀ i ∈ g, A.getD i 0 = A.getD 0 0) :
    groups ≠ [] ∧
    (∀ g ∈ groups, ∀ i ∈ g, min 2 (A.getD 0 0) ≤ A'.getD i 0) ∧
    (∀ j, (∀ g ∈ groups, j ∉ g) → A'.getD j 0 = A.getD j 0) := by
  obtain ⟨h1, h2, -⟩ :=
    stage3A_ge f groups W D fuel A A' acc minAcc acc' h hnd hdisj huni
  refine ⟨?_, h1, h2⟩
  intro hnil
  rw [hnil] at h
  simp [stage3A] at h

/-- Witness for the amended C7 at the concrete counterexample run: the
single grouped layer, entered at 3 bits, ends at 2 bits — exactly the
`min 2 3 = 2` floor of the amended claim. -/
theorem c7_act_floor_amended_witness :
    stage3A constOracle [[0]] [5] [] 9 [3] 100 0 = .ok ([2], 100) ∧
    min 2 (([3] : List ℕ).getD 0 0) ≤ ([2] : List ℕ).getD 0 0 := by
  refine ⟨c7_run_eval, ?_⟩
  obtain ⟨-, h1, -⟩ :=
    c7_act_floor_amended constOracle [[0]] [5] [] 9 [3] [2] 100 0 100
      c7_run_eval (by simp) (by simp) (by decide)
  exact h1 [0] (by simp) 0 (by simp)

/-! ### C4 — the branch-B double return -/

set_option maxRecDepth 200000 in
lemma c4_run_eval :
    qcapsnets md4 f4 100 10 (4 / 2 ^ 23) 9
      = .double ⟨[1], [32], [], 50, 32⟩ ⟨[3], [32], [], 95, 32 / 3⟩ := by
  norm_num [qcapsnets, qcapsnetsFrom2, step1Search, step1Oracle, md4, f4,
    ModelInfo.n, ModelInfo.drCount, step1_min_acc, minimum_accuracy,
    step2RaiseLoop, step2LowerPhase, step2LowerLayer, step2LowerLoop,
    sqnrOrder, sqnr_tuples, insertByDesc, memReduction, weightMemoryBits,
    List.enum, List.enumFrom, memErrText]

/-- Counterexample to C4 as stated: a run in which the lower phase exhausts
its only layer still over budget and two configurations are returned, but
the first returned configuration carries the uniform Stage 2 candidate
`[1]` with its pre-raise accuracy 50, not the raise-phase configuration
`[3]` with accuracy 95 where the accuracy-raise phase actually ended. -/
theorem c4_double_return_counterexample :
    qcapsnets md4 f4 100 10 (4 / 2 ^ 23) 9
        = .double ⟨[1], [32], [], 50, 32⟩ ⟨[3], [32], [], 95, 32 / 3⟩ ∧
    step2RaiseLoop f4 (minimum_accuracy 100 10) [32] [] 9 [1] 50
        = some ([3], 95) ∧
    ([1] : List ℕ) ≠ [3] := by
  refine ⟨c4_run_eval, ?_, by simp⟩
  norm_num [step2RaiseLoop, f4, minimum_accuracy]

/-- C4 (amended): when Stage 2's lower phase exhausts all layers without
the total weight memory fitting the budget, `qcapsnets` returns exactly two
tagged configurations — but the first is the uniform Stage 2 memory
candidate (bit-width `floor(budget / total weights)` in every layer) with
the accuracy measured before the raise phase, not the raise-phase
configuration; the second is the lower-phase final configuration, as
claimed.  Each carries its own bit-width vectors, measured accuracy and
memory-reduction factor. -/
theorem c4_branch_return_amended (m : ModelInfo) (f : Oracle)
    (topAcc tol memBudget : ℚ) (fuel : ℕ) (b1 : ℕ) (Wr Wl : List ℕ)
    (accr accl : ℚ)
    (hfeas : ¬ memBudget * 8 * 2 ^ 20 < (m.wcounts.sum : ℚ))
    (hpos : m.wcounts.sum ≠ 0)
    (henter : f (List.replicate m.n
        (⌊memBudget * 8 * 2 ^ 20 / (m.wcounts.sum : ℚ)⌋.toNat))
        (List.replicate m.n b1) (List.replicate m.drCount b1)
      < minimum_accuracy topAcc tol)
    (hraise : step2RaiseLoop f (minimum_accuracy topAcc tol)
        (List.replicate m.n b1) (List.replicate m.drCount b1) fuel
        (List.replicate m.n
          (⌊memBudget * 8 * 2 ^ 20 / (m.wcounts.sum : ℚ)⌋.toNat))
        (f (List.replicate m.n
            (⌊memBudget * 8 * 2 ^ 20 / (m.wcounts.sum : ℚ)⌋.toNat))
          (List.replicate m.n b1) (List.replicate m.drCount b1))
      = some (Wr, accr))
    (hlower : step2LowerPhase f (minimum_accuracy topAcc tol)
        (memBudget * 8 * 2 ^ 20) m.wcounts (List.replicate m.n b1)
        (List.replicate m.drCount b1) (sqnrOrder m.wSqnr) Wr accr none
      = .ok (Wl, accl, false)) :
    qcapsnetsFrom2 m f topAcc tol memBudget fuel b1
      = .double
          ⟨List.replicate m.n
             (⌊memBudget * 8 * 2 ^ 20 / (m.wcounts.sum : ℚ)⌋.toNat),
           List.replicate m.n b1, List.replicate m.drCount b1,
           f (List.replicate m.n
               (⌊memBudget * 8 * 2 ^ 20 / (m.wcounts.sum : ℚ)⌋.toNat))
             (List.replicate m.n b1) (List.replicate m.drCount b1),
           memReduction m (List.replicate m.n
             (⌊memBudget * 8 * 2 ^ 20 / (m.wcounts.sum : ℚ)⌋.toNat))⟩
          ⟨Wl, List.replicate m.n b1, List.replicate m.drCount b1, accl,
           memReduction m Wl⟩ := by
  simp only [qcapsnetsFrom2]
  rw [if_neg hfeas, if_neg hpos, if_neg (not_le.mpr henter), hraise]
  dsimp only
  rw [hlower]
  rfl

/-- Witness for the amended C4 at the concrete counterexample scenario:
one layer with four weights, a 4-bit budget, Stage 1 bit-width 32; the
returned pair is the 1-bit uniform memory candidate at accuracy 50 and the
lower-phase final configuration at 3 bits and accuracy 95. -/
theorem c4_branch_return_amended_witness :
    qcapsnetsFrom2 md4 f4 100 10 (4 / 2 ^ 23) 9 32
      = .double ⟨[1], [32], [], 50, 32⟩ ⟨[3], [32], [], 95, 32 / 3⟩ := by
  have hb2 : (⌊(4 / 2 ^ 23 : ℚ) * 8 * 2 ^ 20 / (md4.wcounts.sum : ℚ)⌋.toNat)
      = 1 := by
    norm_num [md4]
  have hfeas : ¬ (4 / 2 ^ 23 : ℚ) * 8 * 2 ^ 20 < (md4.wcounts.sum : ℚ) := by
    norm_num [md4]
  have hpos : md4.wcounts.sum ≠ 0 := by norm_num [md4]
  have henter : f4 (List.replicate md4.n
        (⌊(4 / 2 ^ 23 : ℚ) * 8 * 2 ^ 20 / (md4.wcounts.sum : ℚ)⌋.toNat))
        (List.replicate md4.n 32) (List.replicate md4.drCount 32)
      < minimum_accuracy 100 10 := by
    rw [hb2]
    norm_num [md4, f4, ModelInfo.n, ModelInfo.drCount, minimum_accuracy]
  have hraise : step2RaiseLoop f4 (minimum_accuracy 100 10)
        (List.replicate md4.n 32) (List.replicate md4.drCount 32) 9
        (List.replicate md4.n
          (⌊(4 / 2 ^ 23 : ℚ) * 8 * 2 ^ 20 / (md4.wcounts.sum : ℚ)⌋.toNat))
        (f4 (List.replicate md4.n
            (⌊(4 / 2 ^ 23 : ℚ) * 8 * 2 ^ 20 / (md4.wcounts.sum : ℚ)⌋.toNat))
          (List.replicate md4.n 32) (List.replicate md4.drCount 32))
      = some ([3], 95) := by
    rw [hb2]
    norm_num [md4, f4, ModelInfo.n, ModelInfo.drCount, minimum_accuracy,
      step2RaiseLoop]
  have hlower : step2LowerPhase f4 (minimum_accuracy 100 10)
        ((4 / 2 ^ 23 : ℚ) * 8 * 2 ^ 20) md4.wcounts
        (List.replicate md4.n 32) (List.replicate md4.drCount 32)
        (sqnrOrder md4.wSqnr) [3] 95 none = .ok ([3], 95, false) := by
    norm_num [md4, f4, ModelInfo.n, ModelInfo.drCount, minimum_accuracy,
      step2LowerPhase, step2LowerLayer, step2LowerLoop, sqnrOrder,
      sqnr_tuples, insertByDesc, weightMemoryBits, List.enum,
      List.enumFrom]
  rw [c4_branch_return_amended md4 f4 100 10 (4 / 2 ^ 23) 9 32 [3] [3] 95 95
    hfeas hpos henter hraise hlower]
  rw [hb2]
  norm_num [md4, ModelInfo.n, ModelInfo.drCount, f4, memReduction,
    weightMemoryBits]

end QCaps
